import Mathlib

/-!
Shallow embedding of the tic-tac-toe move-recommendation engine
(`src/main.rs`): the board model, the move-history decoder, the
win/draw evaluator and the minimax search with alpha-beta pruning,
together with proofs of the specification claims about them.

Machine integers: Rust `i32` is modelled as `Int` (the only operations
used on scores/alpha/beta are comparisons, `max` and `min`, which never
overflow); `i32::MIN`/`i32::MAX` are the explicit constants `intMin` /
`intMax`.  Rust `usize` is modelled as `Nat`; `str::parse::<usize>`
is modelled including its 64-bit overflow failure.

Board cells are accessed in the source through `Vec` indexing that is
always guarded by bounds checks; the embedding uses total `getD`
accessors, and well-formedness (`TicTacToe.WF`) states that the grid is
exactly `size × size`, which holds for every board the program builds.

The search mutates the board in place and restores it (place / recurse /
clear); the embedding threads the board state explicitly, so `minmax`
returns both the `(score, best move)` pair and the final board state.
-/

/-- The two players, `X` and `O` (`enum Player` in the source). -/
inductive Player where
  | X : Player
  | O : Player
deriving DecidableEq

/-- The opposite player (the `match` used to flip `current_turn`). -/
def Player.other : Player → Player
  | Player.X => Player.O
  | Player.O => Player.X

/-- Structural equality of two cells (derived `PartialEq` on
`Option<Player>`), as a directly computable `Bool`. -/
def beqCell : Option Player → Option Player → Bool
  | none, none => true
  | some Player.X, some Player.X => true
  | some Player.O, some Player.O => true
  | _, _ => false

/-- The game state (`struct TicTacToe`): side length, grid of cells
(`none` = empty), and whose turn is notionally next. -/
structure TicTacToe where
  size : Nat
  board : List (List (Option Player))
  current_turn : Player
deriving DecidableEq

/-- `i32::MIN`. -/
def intMin : Int := -(2 ^ 31)

/-- `i32::MAX`. -/
def intMax : Int := 2 ^ 31 - 1

namespace TicTacToe

/-- `TicTacToe::new`: an empty `size × size` grid, `X` to move. -/
def new (size : Nat) : TicTacToe :=
  ⟨size, List.replicate size (List.replicate size none), Player.X⟩

/-- Cell access `self.board[r][c]` (total: out-of-range reads give `none`;
every read in the source is bounds-guarded). -/
def cell (t : TicTacToe) (r c : Nat) : Option Player :=
  (t.board.getD r []).getD c none

/-- Cell write `self.board[r][c] = v` (out-of-range writes are no-ops;
every write in the source is bounds-guarded). -/
def setCell (t : TicTacToe) (r c : Nat) (v : Option Player) : TicTacToe :=
  ⟨t.size, t.board.set r ((t.board.getD r []).set c v), t.current_turn⟩

/-- Well-formedness: the grid really is `size × size`.  Holds for every
board built by `new` and preserved by all the operations. -/
def WF (t : TicTacToe) : Prop :=
  t.board.length = t.size ∧ ∀ row ∈ t.board, row.length = t.size

/-- `TicTacToe::is_full`: no empty cell remains. -/
def is_full (t : TicTacToe) : Bool :=
  t.board.all fun row => row.all fun c => c.isSome

/-- Row `i` is entirely `p` (`self.board[i].iter().all(|&c| c == Some(p))`). -/
def rowAll (t : TicTacToe) (i : Nat) (p : Player) : Bool :=
  (t.board.getD i []).all fun c => beqCell c (some p)

/-- Column `i` is entirely `p` (`(0..size).all(|j| self.board[j][i] == Some(p))`). -/
def colAll (t : TicTacToe) (i : Nat) (p : Player) : Bool :=
  (List.range t.size).all fun j => beqCell (t.cell j i) (some p)

/-- The main diagonal is entirely `p`. -/
def diagAll (t : TicTacToe) (p : Player) : Bool :=
  (List.range t.size).all fun i => beqCell (t.cell i i) (some p)

/-- The anti-diagonal is entirely `p`. -/
def antiDiagAll (t : TicTacToe) (p : Player) : Bool :=
  (List.range t.size).all fun i => beqCell (t.cell i (t.size - 1 - i)) (some p)

/-- `TicTacToe::check_winner`: scan rows and columns interleaved by index
(row `i` for `X`, row `i` for `O`, column `i` for `X`, column `i` for `O`),
returning on the first match; then the main diagonal, then the
anti-diagonal.  `List.findSome?` returns the first non-`none` result,
which models the early `return`s of the source loop. -/
def check_winner (t : TicTacToe) : Option Player :=
  match (List.range t.size).findSome? (fun i =>
      if t.rowAll i Player.X then some Player.X
      else if t.rowAll i Player.O then some Player.O
      else if t.colAll i Player.X then some Player.X
      else if t.colAll i Player.O then some Player.O
      else none) with
  | some p => some p
  | none =>
    if t.diagAll Player.X then some Player.X
    else if t.diagAll Player.O then some Player.O
    else if t.antiDiagAll Player.X then some Player.X
    else if t.antiDiagAll Player.O then some Player.O
    else none

/-- `TicTacToe::evaluate`: `X` wins ↦ `1`, `O` wins ↦ `-1`, otherwise `0`. -/
def evaluate (t : TicTacToe) : Int :=
  match t.check_winner with
  | some Player.X => 1
  | some Player.O => -1
  | none => 0

/-- `TicTacToe::available_moves`: the empty cells of the `size × size`
scan, in row-major order (`for row in 0..size { for col in 0..size {...} }`). -/
def available_moves (t : TicTacToe) : List (Nat × Nat) :=
  ((List.range t.size).product (List.range t.size)).filter
    fun rc => (t.cell rc.1 rc.2).isNone

/-- Rust `str::split(sep)`, on strings modelled as their character
lists: splitting the empty string gives one empty token, and separators
delimit (possibly empty) tokens. -/
def splitOnChar (sep : Char) : List Char → List (List Char)
  | [] => [[]]
  | c :: cs =>
    if c = sep then [] :: splitOnChar sep cs
    else
      match splitOnChar sep cs with
      | [] => [[c]]
      | w :: ws => (c :: w) :: ws

/-- `str::parse::<usize>` on a move coordinate: an optional leading `+`,
then a non-empty digit string, failing on 64-bit overflow. -/
def parseUsize (s : List Char) : Option Nat :=
  let s2 := match s with
    | '+' :: cs => cs
    | _ => s
  if s2.isEmpty then none
  else if s2.all Char.isDigit then
    let n := s2.foldl (fun acc c => acc * 10 + (c.toNat - '0'.toNat)) 0
    if n < 2 ^ 64 then some n else none
  else none

/-- Coordinate decoding and placement for one move token whose player
field has already been decoded: parse row and column, bounds- and
occupancy-check, then place the symbol and set `current_turn` to the
other player.  Returns the error message (if any) and the board state. -/
def applyTokenTail (t : TicTacToe) (player : Player)
    (parts : List (List Char)) : Option String × TicTacToe :=
  match parseUsize (parts.getD 1 []) with
  | none => (some "Invalid row", t)
  | some row =>
    match parseUsize (parts.getD 2 []) with
    | none => (some "Invalid column", t)
    | some col =>
      if row ≥ t.size ∨ col ≥ t.size then (some "Move out of bounds", t)
      else if (t.cell row col).isSome then (some "Cell already taken", t)
      else
        (none, ⟨t.size, (t.setCell row col (some player)).board, player.other⟩)

/-- One iteration of the `TicTacToe::parse_moves` loop: split the token
on `-`, require exactly three fields, decode the player field, then
decode and apply the rest of the token. -/
def applyToken (t : TicTacToe) (mv : List Char) : Option String × TicTacToe :=
  let parts := splitOnChar '-' mv
  if parts.length ≠ 3 then (some "Invalid move format", t)
  else
    match parts.getD 0 [] with
    | ['X'] => applyTokenTail t Player.X parts
    | ['O'] => applyTokenTail t Player.O parts
    | _ => (some "Invalid player", t)

/-- The loop of `TicTacToe::parse_moves` over the list of move tokens:
apply each token in order, returning at the first error (the board keeps
the placements made so far, as in the source, which mutates in place). -/
def parseMovesAux (t : TicTacToe) : List (List Char) → Option String × TicTacToe
  | [] => (none, t)
  | mv :: rest =>
    match applyToken t mv with
    | (none, t2) => parseMovesAux t2 rest
    | (some e, t2) => (some e, t2)

/-- `TicTacToe::parse_moves`: split the history string on `_` and apply
each token in order (the history string is modelled as its character
list). -/
def parse_moves (t : TicTacToe) (moves_str : List Char) :
    Option String × TicTacToe :=
  parseMovesAux t (splitOnChar '_' moves_str)

/-- The maximizing loop of `TicTacToe::minmax` (`player == Player::X`):
iterate over the pre-computed available moves; place `X`, recurse through
`rec`, clear the cell; update `max_eval` / `best_move` on strict
improvement; raise `alpha`; stop on `beta <= alpha`. -/
def maxLoop (rec : TicTacToe → Nat → Player → Int → Int →
      (Int × Option (Nat × Nat)) × TicTacToe) (depth : Nat) :
    TicTacToe → List (Nat × Nat) → Int → Int → Int → Option (Nat × Nat) →
      (Int × Option (Nat × Nat)) × TicTacToe
  | t, [], _, _, max_eval, best => ((max_eval, best), t)
  | t, (r, c) :: rest, alpha, beta, max_eval, best =>
    let t1 := t.setCell r c (some Player.X)
    let res := rec t1 (depth + 1) Player.O alpha beta
    let eval := res.1.1
    let t3 := res.2.setCell r c none
    let max_eval' := if eval > max_eval then eval else max_eval
    let best' := if eval > max_eval then some (r, c) else best
    let alpha' := max alpha eval
    if beta ≤ alpha' then ((max_eval', best'), t3)
    else maxLoop rec depth t3 rest alpha' beta max_eval' best'

/-- The minimizing loop of `TicTacToe::minmax` (`player == Player::O`),
mirror image of `maxLoop`: lower `beta`, stop on `beta <= alpha`. -/
def minLoop (rec : TicTacToe → Nat → Player → Int → Int →
      (Int × Option (Nat × Nat)) × TicTacToe) (depth : Nat) :
    TicTacToe → List (Nat × Nat) → Int → Int → Int → Option (Nat × Nat) →
      (Int × Option (Nat × Nat)) × TicTacToe
  | t, [], _, _, min_eval, best => ((min_eval, best), t)
  | t, (r, c) :: rest, alpha, beta, min_eval, best =>
    let t1 := t.setCell r c (some Player.O)
    let res := rec t1 (depth + 1) Player.X alpha beta
    let eval := res.1.1
    let t3 := res.2.setCell r c none
    let min_eval' := if eval < min_eval then eval else min_eval
    let best' := if eval < min_eval then some (r, c) else best
    let beta' := min beta eval
    if beta' ≤ alpha then ((min_eval', best'), t3)
    else minLoop rec depth t3 rest alpha beta' min_eval' best'

/-- Pure form of `maxLoop` over an abstract child evaluation
`ev move alpha beta` (proof infrastructure: `maxLoop_eq_run` shows the
stateful loop computes this when the recursion preserves the board). -/
def maxRun (ev : Nat × Nat → Int → Int → Int) :
    List (Nat × Nat) → Int → Int → Int → Option (Nat × Nat) →
      Int × Option (Nat × Nat)
  | [], _, _, m, bst => (m, bst)
  | mv :: rest, alpha, beta, m, bst =>
    let e := ev mv alpha beta
    let m' := if e > m then e else m
    let bst' := if e > m then some mv else bst
    let alpha' := max alpha e
    if beta ≤ alpha' then (m', bst')
    else maxRun ev rest alpha' beta m' bst'

/-- Pure form of `minLoop` over an abstract child evaluation. -/
def minRun (ev : Nat × Nat → Int → Int → Int) :
    List (Nat × Nat) → Int → Int → Int → Option (Nat × Nat) →
      Int × Option (Nat × Nat)
  | [], _, _, m, bst => (m, bst)
  | mv :: rest, alpha, beta, m, bst =>
    let e := ev mv alpha beta
    let m' := if e < m then e else m
    let bst' := if e < m then some mv else bst
    let beta' := min beta e
    if beta' ≤ alpha then (m', bst')
    else minRun ev rest alpha beta' m' bst'

/-- Pure form of the reference maximizing loop over an abstract child
evaluation `ev move` (no window). -/
def refMaxRun (ev : Nat × Nat → Int) :
    List (Nat × Nat) → Int → Option (Nat × Nat) → Int × Option (Nat × Nat)
  | [], m, bst => (m, bst)
  | mv :: rest, m, bst =>
    if ev mv > m then refMaxRun ev rest (ev mv) (some mv)
    else refMaxRun ev rest m bst

/-- Pure form of the reference minimizing loop over an abstract child
evaluation. -/
def refMinRun (ev : Nat × Nat → Int) :
    List (Nat × Nat) → Int → Option (Nat × Nat) → Int × Option (Nat × Nat)
  | [], m, bst => (m, bst)
  | mv :: rest, m, bst =>
    if ev mv < m then refMinRun ev rest (ev mv) (some mv)
    else refMinRun ev rest m bst

/-- The fail-soft alpha-beta contract at window `(a, b)`: the pruned
value `r` agrees with the true value `v` inside the window, and fails
low/high soundly outside it (proof infrastructure for the equivalence
with the reference minimax). -/
def triSpec (r v a b : Int) : Prop :=
  (v ≤ a → v ≤ r ∧ r ≤ a) ∧ (b ≤ v → b ≤ r ∧ r ≤ v) ∧
    (a < v → v < b → r = v)

/-- Running maximum of child evaluations (the value component of
`refMaxRun`). -/
def foldMax (ev : Nat × Nat → Int) : List (Nat × Nat) → Int → Int
  | [], m => m
  | mv :: rest, m => foldMax ev rest (max m (ev mv))

/-- Running minimum of child evaluations (the value component of
`refMinRun`). -/
def foldMin (ev : Nat × Nat → Int) : List (Nat × Nat) → Int → Int
  | [], m => m
  | mv :: rest, m => foldMin ev rest (min m (ev mv))

/-- `TicTacToe::minmax`, fuel-indexed (the Rust recursion terminates
because every recursive call fills an empty cell; the fuel makes that
termination argument explicit, and `minmaxFuel_stable` below shows any
fuel larger than the number of empty cells gives the same result).
Base case test: score `1`, score `-1`, or full board. -/
def minmaxFuel : Nat → TicTacToe → Nat → Player → Int → Int →
    (Int × Option (Nat × Nat)) × TicTacToe
  | 0 => fun t _ _ _ _ => ((0, none), t)
  | fuel + 1 => fun t depth player alpha beta =>
    let score := t.evaluate
    if score = 1 ∨ score = -1 ∨ t.is_full then ((score, none), t)
    else if player = Player.X then
      maxLoop (minmaxFuel fuel) depth t t.available_moves alpha beta intMin none
    else
      minLoop (minmaxFuel fuel) depth t t.available_moves alpha beta intMax none

/-- `TicTacToe::minmax`: the fuelled search run with enough fuel for the
whole game tree (one more than the number of empty cells). -/
def minmax (t : TicTacToe) (depth : Nat) (player : Player)
    (alpha beta : Int) : (Int × Option (Nat × Nat)) × TicTacToe :=
  minmaxFuel (t.available_moves.length + 1) t depth player alpha beta

/-- A 3×3 board unrolled into nine cells (proof infrastructure: a
reduction-friendly representation of the boards reachable from the empty
3×3 board, used to evaluate the search inside the kernel; `fm3_eq` below
proves it computes exactly the value component of `minmaxFuel`). -/
structure B3 where
  c00 : Option Player
  c01 : Option Player
  c02 : Option Player
  c10 : Option Player
  c11 : Option Player
  c12 : Option Player
  c20 : Option Player
  c21 : Option Player
  c22 : Option Player
deriving DecidableEq

/-- The `TicTacToe` board denoted by a `B3`. -/
def toT (B : B3) (ct : Player) : TicTacToe :=
  ⟨3, [[B.c00, B.c01, B.c02], [B.c10, B.c11, B.c12], [B.c20, B.c21, B.c22]],
    ct⟩

/-- `setCell` on the unrolled representation (out-of-range writes are
no-ops, as in `setCell`). -/
def set3 (r c : Nat) (v : Option Player) (B : B3) : B3 :=
  match r, c with
  | 0, 0 => ⟨v, B.c01, B.c02, B.c10, B.c11, B.c12, B.c20, B.c21, B.c22⟩
  | 0, 1 => ⟨B.c00, v, B.c02, B.c10, B.c11, B.c12, B.c20, B.c21, B.c22⟩
  | 0, 2 => ⟨B.c00, B.c01, v, B.c10, B.c11, B.c12, B.c20, B.c21, B.c22⟩
  | 1, 0 => ⟨B.c00, B.c01, B.c02, v, B.c11, B.c12, B.c20, B.c21, B.c22⟩
  | 1, 1 => ⟨B.c00, B.c01, B.c02, B.c10, v, B.c12, B.c20, B.c21, B.c22⟩
  | 1, 2 => ⟨B.c00, B.c01, B.c02, B.c10, B.c11, v, B.c20, B.c21, B.c22⟩
  | 2, 0 => ⟨B.c00, B.c01, B.c02, B.c10, B.c11, B.c12, v, B.c21, B.c22⟩
  | 2, 1 => ⟨B.c00, B.c01, B.c02, B.c10, B.c11, B.c12, B.c20, v, B.c22⟩
  | 2, 2 => ⟨B.c00, B.c01, B.c02, B.c10, B.c11, B.c12, B.c20, B.c21, v⟩
  | _, _ => B

/-- All three cells of a line hold `p` (the unrolled form of a row,
column or diagonal check of `check_winner` on a 3×3 board). -/
def line3 (x y z : Option Player) (p : Player) : Bool :=
  beqCell x (some p) && (beqCell y (some p) && (beqCell z (some p) && true))

/-- First hit of a scan step: a found winner short-circuits the rest of
the scan (the shape of `check_winner`'s early returns). -/
def scanStep (x : Option Player) (rest : Option Player) : Option Player :=
  match x with
  | some b => some b
  | none => rest

/-- `check_winner` specialized to a 3×3 board: the same scan (row `i`
for `X`/`O`, column `i` for `X`/`O`, `i = 0,1,2`, then the diagonals)
with the cell accesses unrolled. -/
def w3 (B : B3) : Option Player :=
  scanStep
    (scanStep
      (if line3 B.c00 B.c01 B.c02 Player.X then some Player.X
       else if line3 B.c00 B.c01 B.c02 Player.O then some Player.O
       else if line3 B.c00 B.c10 B.c20 Player.X then some Player.X
       else if line3 B.c00 B.c10 B.c20 Player.O then some Player.O
       else none)
      (scanStep
        (if line3 B.c10 B.c11 B.c12 Player.X then some Player.X
         else if line3 B.c10 B.c11 B.c12 Player.O then some Player.O
         else if line3 B.c01 B.c11 B.c21 Player.X then some Player.X
         else if line3 B.c01 B.c11 B.c21 Player.O then some Player.O
         else none)
        (scanStep
          (if line3 B.c20 B.c21 B.c22 Player.X then some Player.X
           else if line3 B.c20 B.c21 B.c22 Player.O then some Player.O
           else if line3 B.c02 B.c12 B.c22 Player.X then some Player.X
           else if line3 B.c02 B.c12 B.c22 Player.O then some Player.O
           else none)
          none)))
    (if line3 B.c00 B.c11 B.c22 Player.X then some Player.X
     else if line3 B.c00 B.c11 B.c22 Player.O then some Player.O
     else if line3 B.c02 B.c11 B.c20 Player.X then some Player.X
     else if line3 B.c02 B.c11 B.c20 Player.O then some Player.O
     else none)

/-- `evaluate` on the unrolled representation. -/
def eval3 (B : B3) : Int :=
  match w3 B with
  | some Player.X => 1
  | some Player.O => -1
  | none => 0

/-- `is_full` on the unrolled representation. -/
def full3 (B : B3) : Bool :=
  (B.c00.isSome && (B.c01.isSome && (B.c02.isSome && true))) &&
    ((B.c10.isSome && (B.c11.isSome && (B.c12.isSome && true))) &&
      ((B.c20.isSome && (B.c21.isSome && (B.c22.isSome && true))) && true))

/-- `available_moves` on the unrolled representation (row-major). -/
def avail3 (B : B3) : List (Nat × Nat) :=
  let t22 : List (Nat × Nat) := if B.c22.isNone then [(2, 2)] else []
  let t21 := if B.c21.isNone then (2, 1) :: t22 else t22
  let t20 := if B.c20.isNone then (2, 0) :: t21 else t21
  let t12 := if B.c12.isNone then (1, 2) :: t20 else t20
  let t11 := if B.c11.isNone then (1, 1) :: t12 else t12
  let t10 := if B.c10.isNone then (1, 0) :: t11 else t11
  let t02 := if B.c02.isNone then (0, 2) :: t10 else t10
  let t01 := if B.c01.isNone then (0, 1) :: t02 else t02
  if B.c00.isNone then (0, 0) :: t01 else t01

/-- The value component of `minmaxFuel` on the unrolled representation
(same terminal test, same runners, same windows). -/
def fm3 : Nat → B3 → Player → Int → Int → Int
  | 0, _, _, _, _ => 0
  | fuel + 1, B, player, alpha, beta =>
    let score := eval3 B
    if score = 1 ∨ score = -1 ∨ full3 B then score
    else if player = Player.X then
      (maxRun (fun mv a' b' => fm3 fuel (set3 mv.1 mv.2 (some Player.X) B)
        Player.O a' b') (avail3 B) alpha beta intMin none).1
    else
      (minRun (fun mv a' b' => fm3 fuel (set3 mv.1 mv.2 (some Player.O) B)
        Player.X a' b') (avail3 B) alpha beta intMax none).1

/-- The child evaluation at the root of the empty 3×3 board: `X` plays
`mv`, then the unrolled search runs for `O` (proof infrastructure for
evaluating the root loop one child per kernel reduction). -/
def rootEv : Nat × Nat → Int → Int → Int :=
  fun mv a' b' => fm3 9 (set3 mv.1 mv.2 (some Player.X)
    ⟨none, none, none, none, none, none, none, none, none⟩) Player.O a' b'

/-- Spec-side predicate, from the specification's words: some full row,
some full column, the main diagonal, or the anti-diagonal consists
entirely of `p`'s symbol. -/
def hasLine (t : TicTacToe) (p : Player) : Prop :=
  (∃ i < t.size, ∀ c ∈ t.board.getD i [], c = some p) ∨
  (∃ i < t.size, ∀ j < t.size, t.cell j i = some p) ∨
  (∀ i < t.size, t.cell i i = some p) ∨
  (∀ i < t.size, t.cell i (t.size - 1 - i) = some p)

instance (t : TicTacToe) (p : Player) : Decidable (t.hasLine p) :=
  inferInstanceAs (Decidable
    ((∃ i < t.size, ∀ c ∈ t.board.getD i [], c = some p) ∨
      (∃ i < t.size, ∀ j < t.size, t.cell j i = some p) ∨
      (∀ i < t.size, t.cell i i = some p) ∨
      (∀ i < t.size, t.cell i (t.size - 1 - i) = some p)))

instance (t : TicTacToe) : Decidable (t.WF) :=
  inferInstanceAs (Decidable
    (t.board.length = t.size ∧ ∀ row ∈ t.board, row.length = t.size))

/-- The maximizing loop of the reference exhaustive minimax (spec-side,
modelled from the claim's words): same enumeration and strict-improvement
tie-break as `maxLoop`, but no alpha-beta window and no mutation. -/
def refMaxLoop (rec : TicTacToe → Player → Int × Option (Nat × Nat))
    (t : TicTacToe) :
    List (Nat × Nat) → Int → Option (Nat × Nat) → Int × Option (Nat × Nat)
  | [], max_eval, best => (max_eval, best)
  | (r, c) :: rest, max_eval, best =>
    let eval := (rec (t.setCell r c (some Player.X)) Player.O).1
    if eval > max_eval then refMaxLoop rec t rest eval (some (r, c))
    else refMaxLoop rec t rest max_eval best

/-- The minimizing loop of the reference exhaustive minimax (spec-side). -/
def refMinLoop (rec : TicTacToe → Player → Int × Option (Nat × Nat))
    (t : TicTacToe) :
    List (Nat × Nat) → Int → Option (Nat × Nat) → Int × Option (Nat × Nat)
  | [], min_eval, best => (min_eval, best)
  | (r, c) :: rest, min_eval, best =>
    let eval := (rec (t.setCell r c (some Player.O)) Player.X).1
    if eval < min_eval then refMinLoop rec t rest eval (some (r, c))
    else refMinLoop rec t rest min_eval best

/-- Reference exhaustive minimax without pruning (spec-side, fuelled like
`minmaxFuel`): same terminal test, same row-major candidate enumeration,
move updated only on strict improvement. -/
def refMinimaxFuel : Nat → TicTacToe → Player → Int × Option (Nat × Nat)
  | 0 => fun _ _ => (0, none)
  | fuel + 1 => fun t player =>
    let score := t.evaluate
    if score = 1 ∨ score = -1 ∨ t.is_full then (score, none)
    else if player = Player.X then
      refMaxLoop (refMinimaxFuel fuel) t t.available_moves intMin none
    else
      refMinLoop (refMinimaxFuel fuel) t t.available_moves intMax none

/-- Reference exhaustive minimax, run with enough fuel for the whole
game tree. -/
def refMinimax (t : TicTacToe) (player : Player) : Int × Option (Nat × Nat) :=
  refMinimaxFuel (t.available_moves.length + 1) t player

/-! ### Basic lemmas: cells, writes, well-formedness, available moves -/

theorem beqCell_eq_true {x y : Option Player} : beqCell x y = true ↔ x = y := by
  cases x with
  | none => cases y with
    | none => simp [beqCell]
    | some q => cases q <;> simp [beqCell]
  | some p => cases y with
    | none => cases p <;> simp [beqCell]
    | some q => cases p <;> cases q <;> simp [beqCell]

theorem getD_set_self {α : Type} (l : List α) (i : Nat) (v d : α)
    (h : i < l.length) : (l.set i v).getD i d = v := by
  rw [List.getD_eq_getElem?_getD, List.getElem?_set_self (by simpa using h)]
  rfl

theorem getD_set_ne {α : Type} (l : List α) (i j : Nat) (v d : α)
    (h : i ≠ j) : (l.set i v).getD j d = l.getD j d := by
  rw [List.getD_eq_getElem?_getD, List.getElem?_set_ne h,
    ← List.getD_eq_getElem?_getD]

theorem set_getD_self {α : Type} :
    ∀ (l : List α) (i : Nat) (d : α), l.set i (l.getD i d) = l
  | [], _, _ => rfl
  | _ :: _, 0, _ => by simp
  | a :: l, i+1, d => by
    simp only [List.getD_cons_succ, List.set_cons_succ]
    rw [set_getD_self l i d]

theorem cell_setCell_self (t : TicTacToe) (r c : Nat) (v : Option Player)
    (hr : r < t.board.length) (hc : c < (t.board.getD r []).length) :
    (t.setCell r c v).cell r c = v := by
  simp only [cell, setCell]
  rw [getD_set_self _ _ _ _ hr, getD_set_self _ _ _ _ hc]

theorem cell_setCell_ne (t : TicTacToe) (r c r' c' : Nat) (v : Option Player)
    (h : (r, c) ≠ (r', c')) :
    (t.setCell r c v).cell r' c' = t.cell r' c' := by
  simp only [cell, setCell]
  by_cases hr : r = r'
  · subst hr
    have hc : c ≠ c' := fun hcc => h (by rw [hcc])
    by_cases hlen : r < t.board.length
    · rw [getD_set_self _ _ _ _ hlen, getD_set_ne _ _ _ _ _ hc]
    · rw [List.set_eq_of_length_le (Nat.le_of_not_lt hlen)]
  · rw [getD_set_ne _ _ _ _ _ hr]

theorem setCell_cancel (t : TicTacToe) (r c : Nat) (v : Option Player)
    (h : t.cell r c = none) :
    (t.setCell r c v).setCell r c none = t := by
  rcases t with ⟨s, B, ct⟩
  simp only [cell] at h
  simp only [setCell]
  by_cases hr : r < B.length
  · rw [getD_set_self _ _ _ _ hr, List.set_set, List.set_set]
    by_cases hc : c < (B.getD r []).length
    · have : (B.getD r []).set c none = B.getD r [] := by
        conv_rhs => rw [← set_getD_self (B.getD r []) c none]
        rw [h]
      rw [this, set_getD_self]
    · rw [List.set_eq_of_length_le (Nat.le_of_not_lt hc), set_getD_self]
  · simp [List.set_eq_of_length_le (Nat.le_of_not_lt hr)]

theorem mem_available_moves {t : TicTacToe} {rc : Nat × Nat} :
    rc ∈ t.available_moves ↔
      rc.1 < t.size ∧ rc.2 < t.size ∧ t.cell rc.1 rc.2 = none := by
  rcases rc with ⟨r, c⟩
  simp [available_moves, List.mem_filter, List.pair_mem_product,
    Option.isNone_iff_eq_none, and_assoc]

theorem available_moves_cell_none {t : TicTacToe} {rc : Nat × Nat}
    (h : rc ∈ t.available_moves) : t.cell rc.1 rc.2 = none :=
  (mem_available_moves.mp h).2.2

/-! ### The search never changes the board (frame property) -/

theorem maxLoop_state (rec : TicTacToe → Nat → Player → Int → Int →
      (Int × Option (Nat × Nat)) × TicTacToe) (depth : Nat)
    (hrec : ∀ t' d' p' a' b', (rec t' d' p' a' b').2 = t') :
    ∀ (l : List (Nat × Nat)) (t : TicTacToe) (a b m : Int)
      (bst : Option (Nat × Nat)), (∀ mv ∈ l, t.cell mv.1 mv.2 = none) →
      (maxLoop rec depth t l a b m bst).2 = t
  | [], t, a, b, m, bst, _ => rfl
  | (r, c) :: rest, t, a, b, m, bst, h => by
    have hcancel : ((rec (t.setCell r c (some Player.X)) (depth + 1) Player.O
        a b).2).setCell r c none = t := by
      rw [hrec, setCell_cancel _ _ _ _ (h (r, c) (by simp))]
    simp only [maxLoop, hcancel]
    split
    · rfl
    · exact maxLoop_state rec depth hrec rest t _ b _ _
        fun mv hmv => h mv (List.mem_cons_of_mem _ hmv)

theorem minLoop_state (rec : TicTacToe → Nat → Player → Int → Int →
      (Int × Option (Nat × Nat)) × TicTacToe) (depth : Nat)
    (hrec : ∀ t' d' p' a' b', (rec t' d' p' a' b').2 = t') :
    ∀ (l : List (Nat × Nat)) (t : TicTacToe) (a b m : Int)
      (bst : Option (Nat × Nat)), (∀ mv ∈ l, t.cell mv.1 mv.2 = none) →
      (minLoop rec depth t l a b m bst).2 = t
  | [], t, a, b, m, bst, _ => rfl
  | (r, c) :: rest, t, a, b, m, bst, h => by
    have hcancel : ((rec (t.setCell r c (some Player.O)) (depth + 1) Player.X
        a b).2).setCell r c none = t := by
      rw [hrec, setCell_cancel _ _ _ _ (h (r, c) (by simp))]
    simp only [minLoop, hcancel]
    split
    · rfl
    · exact minLoop_state rec depth hrec rest t a _ _ _
        fun mv hmv => h mv (List.mem_cons_of_mem _ hmv)

/-- The search returns the board exactly as it received it, whatever the
fuel, board, player and window. -/
theorem minmaxFuel_state :
    ∀ (fuel : Nat) (t : TicTacToe) (d : Nat) (p : Player) (a b : Int),
      (minmaxFuel fuel t d p a b).2 = t
  | 0, _, _, _, _, _ => rfl
  | fuel + 1, t, d, p, a, b => by
    simp only [minmaxFuel]
    split
    · rfl
    · split
      · exact maxLoop_state _ _ (fun t' d' p' a' b' =>
          minmaxFuel_state fuel t' d' p' a' b') _ t a b _ _
          fun mv hmv => available_moves_cell_none hmv
      · exact minLoop_state _ _ (fun t' d' p' a' b' =>
          minmaxFuel_state fuel t' d' p' a' b') _ t a b _ _
          fun mv hmv => available_moves_cell_none hmv

/-! ### Well-formedness preservation and counting of empty cells -/

theorem getD_mem {α : Type} {l : List α} {d : α} {i : Nat} (h : i < l.length) :
    l.getD i d ∈ l := by
  rw [List.getD_eq_getElem?_getD, List.getElem?_eq_getElem (by simpa using h)]
  exact List.getElem_mem (by simpa using h)

theorem WF_setCell {t : TicTacToe} (h : t.WF) (r c : Nat) (v : Option Player) :
    (t.setCell r c v).WF := by
  obtain ⟨hlen, hrows⟩ := h
  by_cases hr : r < t.board.length
  · refine ⟨by simpa [setCell] using hlen, ?_⟩
    intro row hrow
    rcases List.mem_or_eq_of_mem_set hrow with hmem | heq
    · exact hrows _ hmem
    · subst heq
      rw [List.length_set]
      exact hrows _ (getD_mem hr)
  · have : t.setCell r c v = ⟨t.size, t.board, t.current_turn⟩ := by
      simp [setCell, List.set_eq_of_length_le (Nat.le_of_not_lt hr)]
    rw [this]
    exact ⟨hlen, hrows⟩

theorem cell_of_WF {t : TicTacToe} (h : t.WF) {r c : Nat}
    (hr : r < t.size) (hc : c < t.size) :
    r < t.board.length ∧ c < (t.board.getD r []).length := by
  obtain ⟨hlen, hrows⟩ := h
  have hr' : r < t.board.length := by rw [hlen]; exact hr
  exact ⟨hr', by rw [hrows _ (getD_mem hr')]; exact hc⟩

theorem available_moves_setCell {t : TicTacToe} (h : t.WF) {r c : Nat}
    (hmem : (r, c) ∈ t.available_moves) (p : Player) :
    (t.setCell r c (some p)).available_moves =
      t.available_moves.filter fun mv => !(mv == (r, c)) := by
  obtain ⟨hr, hc, -⟩ := mem_available_moves.mp hmem
  obtain ⟨hr', hc'⟩ := cell_of_WF h hr hc
  have hsome : (t.setCell r c (some p)).cell r c = some p :=
    cell_setCell_self t r c (some p) hr' hc'
  have hstep : ∀ mv ∈ (List.range t.size).product (List.range t.size),
      ((t.setCell r c (some p)).cell mv.1 mv.2).isNone =
        ((t.cell mv.1 mv.2).isNone && !(mv == (r, c))) := by
    rintro ⟨r', c'⟩ -
    by_cases hmv : (r, c) = (r', c')
    · obtain ⟨rfl, rfl⟩ := Prod.mk.injEq .. ▸ hmv
      simp [hsome, (mem_available_moves.mp hmem).2.2]
    · rw [cell_setCell_ne t r c r' c' (some p) hmv]
      have : ((r', c') == (r, c)) = false := by
        simp only [beq_eq_false_iff_ne, ne_eq]
        exact fun hx => hmv (by rw [hx])
      simp [this]
  calc (t.setCell r c (some p)).available_moves
      = ((List.range t.size).product (List.range t.size)).filter
          (fun mv => ((t.cell mv.1 mv.2).isNone && !(mv == (r, c)))) := by
        simp only [available_moves, setCell]
        exact List.filter_congr hstep
    _ = t.available_moves.filter fun mv => !(mv == (r, c)) := by
        rw [available_moves, List.filter_filter]
        exact List.filter_congr fun mv _ => Bool.and_comm _ _

theorem available_moves_nodup (t : TicTacToe) : t.available_moves.Nodup :=
  (((List.nodup_range t.size).product (List.nodup_range t.size)).filter _)

theorem length_available_setCell {t : TicTacToe} (h : t.WF) {r c : Nat}
    (hmem : (r, c) ∈ t.available_moves) (p : Player) :
    (t.setCell r c (some p)).available_moves.length + 1 =
      t.available_moves.length := by
  rw [available_moves_setCell h hmem p]
  have hfil : t.available_moves.filter (fun mv => !(mv == (r, c))) =
      t.available_moves.erase (r, c) := by
    rw [(available_moves_nodup t).erase_eq_filter]
    rfl
  rw [hfil, List.length_erase_of_mem hmem]
  have : 0 < t.available_moves.length := List.length_pos.mpr
    (fun hnil => by simp [hnil] at hmem)
  omega

theorem available_moves_eq_nil_iff {t : TicTacToe} (h : t.WF) :
    t.available_moves = [] ↔ t.is_full = true := by
  obtain ⟨hlen, hrows⟩ := h
  rw [available_moves, List.filter_eq_nil_iff, is_full, List.all_eq_true]
  constructor
  · intro hall row hrow
    rw [List.all_eq_true]
    intro cl hcl
    obtain ⟨⟨r, hr⟩, hget⟩ := List.mem_iff_get.mp hrow
    obtain ⟨⟨c, hc⟩, hget2⟩ := List.mem_iff_get.mp hcl
    have hrowD : t.board.getD r [] = row := by
      rw [List.getD_eq_getElem?_getD, List.getElem?_eq_getElem (by simpa using hr)]
      simpa [List.get_eq_getElem] using hget
    have hcell : t.cell r c = cl := by
      rw [cell, hrowD, List.getD_eq_getElem?_getD,
        List.getElem?_eq_getElem (by simpa using hc)]
      simpa [List.get_eq_getElem] using hget2
    have hmem2 : (r, c) ∈ (List.range t.size).product (List.range t.size) := by
      rw [List.pair_mem_product]
      constructor
      · rw [List.mem_range]; rw [← hlen]; exact hr
      · rw [List.mem_range, ← hrows row hrow]; exact hc
    have := hall (r, c) hmem2
    simp only [hcell] at this
    cases cl with
    | none => simp at this
    | some q => simp
  · rintro hall ⟨r, c⟩ hmem2
    rw [List.pair_mem_product, List.mem_range, List.mem_range] at hmem2
    obtain ⟨hr, hc⟩ := hmem2
    have hr' : r < t.board.length := by rw [hlen]; exact hr
    have hrow := hall _ (getD_mem (d := []) hr')
    rw [List.all_eq_true] at hrow
    have hc' : c < (t.board.getD r []).length := by
      rw [hrows _ (getD_mem hr')]; exact hc
    have := hrow _ (getD_mem (d := none) hc')
    simp only [cell]
    intro hnone
    rw [Option.isNone_iff_eq_none] at hnone
    rw [hnone] at this
    simp at this

/-! ### Fuel stability: any fuel beyond the number of empty cells agrees -/

theorem maxLoop_congr (rec1 rec2 : TicTacToe → Nat → Player → Int → Int →
      (Int × Option (Nat × Nat)) × TicTacToe) (depth : Nat)
    (hrec1 : ∀ t' d' p' a' b', (rec1 t' d' p' a' b').2 = t') :
    ∀ (l : List (Nat × Nat)) (t : TicTacToe) (a b m : Int)
      (bst : Option (Nat × Nat)),
      (∀ mv ∈ l, t.cell mv.1 mv.2 = none) →
      (∀ mv ∈ l, ∀ a' b', rec1 (t.setCell mv.1 mv.2 (some Player.X))
        (depth + 1) Player.O a' b' =
        rec2 (t.setCell mv.1 mv.2 (some Player.X)) (depth + 1) Player.O a' b') →
      maxLoop rec1 depth t l a b m bst = maxLoop rec2 depth t l a b m bst
  | [], t, a, b, m, bst, _, _ => rfl
  | (r, c) :: rest, t, a, b, m, bst, hnone, hrec => by
    have hcancel : ((rec1 (t.setCell r c (some Player.X)) (depth + 1) Player.O
        a b).2).setCell r c none = t := by
      rw [hrec1, setCell_cancel _ _ _ _ (hnone (r, c) (by simp))]
    simp only [maxLoop, ← hrec (r, c) (by simp) a b, hcancel]
    split
    · rfl
    · exact maxLoop_congr rec1 rec2 depth hrec1 rest t _ b _ _
        (fun mv hmv => hnone mv (List.mem_cons_of_mem _ hmv))
        (fun mv hmv => hrec mv (List.mem_cons_of_mem _ hmv))

theorem minLoop_congr (rec1 rec2 : TicTacToe → Nat → Player → Int → Int →
      (Int × Option (Nat × Nat)) × TicTacToe) (depth : Nat)
    (hrec1 : ∀ t' d' p' a' b', (rec1 t' d' p' a' b').2 = t') :
    ∀ (l : List (Nat × Nat)) (t : TicTacToe) (a b m : Int)
      (bst : Option (Nat × Nat)),
      (∀ mv ∈ l, t.cell mv.1 mv.2 = none) →
      (∀ mv ∈ l, ∀ a' b', rec1 (t.setCell mv.1 mv.2 (some Player.O))
        (depth + 1) Player.X a' b' =
        rec2 (t.setCell mv.1 mv.2 (some Player.O)) (depth + 1) Player.X a' b') →
      minLoop rec1 depth t l a b m bst = minLoop rec2 depth t l a b m bst
  | [], t, a, b, m, bst, _, _ => rfl
  | (r, c) :: rest, t, a, b, m, bst, hnone, hrec => by
    have hcancel : ((rec1 (t.setCell r c (some Player.O)) (depth + 1) Player.X
        a b).2).setCell r c none = t := by
      rw [hrec1, setCell_cancel _ _ _ _ (hnone (r, c) (by simp))]
    simp only [minLoop, ← hrec (r, c) (by simp) a b, hcancel]
    split
    · rfl
    · exact minLoop_congr rec1 rec2 depth hrec1 rest t a _ _ _
        (fun mv hmv => hnone mv (List.mem_cons_of_mem _ hmv))
        (fun mv hmv => hrec mv (List.mem_cons_of_mem _ hmv))

theorem minmaxFuel_congr_fuel :
    ∀ (n : Nat) (t : TicTacToe), t.WF → t.available_moves.length ≤ n →
      ∀ (f g d : Nat) (p : Player) (a b : Int), n < f → n < g →
        minmaxFuel f t d p a b = minmaxFuel g t d p a b := by
  intro n
  induction n using Nat.strong_induction_on with
  | _ n ih =>
    intro t hWF hn f g d p a b hf hg
    obtain ⟨f, rfl⟩ : ∃ f', f = f' + 1 := ⟨f - 1, by omega⟩
    obtain ⟨g, rfl⟩ : ∃ g', g = g' + 1 := ⟨g - 1, by omega⟩
    simp only [minmaxFuel]
    split
    · rfl
    · have hchild : ∀ mv ∈ t.available_moves, ∀ (p' : Player) (a' b' : Int),
          minmaxFuel f (t.setCell mv.1 mv.2 (some p')) (d + 1) p'.other a' b' =
          minmaxFuel g (t.setCell mv.1 mv.2 (some p')) (d + 1) p'.other a' b' := by
        rintro ⟨r, c⟩ hmv p' a' b'
        have hlen := length_available_setCell hWF hmv p'
        have hpos : 0 < t.available_moves.length := by omega
        refine ih (n - 1) (by omega) _ (WF_setCell hWF r c (some p')) (by omega)
          f g (d + 1) p'.other a' b' (by omega) (by omega)
      split
      · exact maxLoop_congr _ _ _ (fun t' d' p' a' b' =>
          minmaxFuel_state f t' d' p' a' b') _ t a b _ _
          (fun mv hmv => available_moves_cell_none hmv)
          (fun mv hmv a' b' => hchild mv hmv Player.X a' b')
      · exact minLoop_congr _ _ _ (fun t' d' p' a' b' =>
          minmaxFuel_state f t' d' p' a' b') _ t a b _ _
          (fun mv hmv => available_moves_cell_none hmv)
          (fun mv hmv a' b' => hchild mv hmv Player.O a' b')

/-! ### The decoder applies tokens left to right -/

theorem parseMovesAux_append {l1 l2 : List (List Char)} :
    ∀ {t t' : TicTacToe}, parseMovesAux t l1 = (none, t') →
      parseMovesAux t (l1 ++ l2) = parseMovesAux t' l2 := by
  induction l1 with
  | nil =>
    intro t t' h
    simp only [parseMovesAux] at h
    obtain ⟨-, rfl⟩ := Prod.mk.injEq .. ▸ h
    rfl
  | cons mv rest ih =>
    intro t t' h
    cases happ : applyToken t mv with
    | mk e t2 =>
      cases e with
      | none =>
        rw [List.cons_append]
        simp only [parseMovesAux, happ] at h ⊢
        exact ih h
      | some s =>
        simp only [parseMovesAux, happ] at h
        exact absurd h (by simp)

/-! ### The search result does not depend on `current_turn` -/

theorem maxLoop_ct (rec : TicTacToe → Nat → Player → Int → Int →
      (Int × Option (Nat × Nat)) × TicTacToe) (depth : Nat) (c1 c2 : Player)
    (hst : ∀ t' d' p' a' b', (rec t' d' p' a' b').2 = t')
    (hct : ∀ s' B' d' p' a' b', (rec ⟨s', B', c1⟩ d' p' a' b').1 =
      (rec ⟨s', B', c2⟩ d' p' a' b').1) :
    ∀ (l : List (Nat × Nat)) (s : Nat) (B : List (List (Option Player)))
      (a b m : Int) (bst : Option (Nat × Nat)),
      (maxLoop rec depth ⟨s, B, c1⟩ l a b m bst).1 =
        (maxLoop rec depth ⟨s, B, c2⟩ l a b m bst).1
  | [], s, B, a, b, m, bst => rfl
  | (r, c) :: rest, s, B, a, b, m, bst => by
    have h1 := hct s (B.set r ((B.getD r []).set c (some Player.X)))
      (depth + 1) Player.O a b
    simp only [maxLoop, setCell, hst, h1]
    split
    · rfl
    · exact maxLoop_ct rec depth c1 c2 hst hct rest s _ _ b _ _

theorem minLoop_ct (rec : TicTacToe → Nat → Player → Int → Int →
      (Int × Option (Nat × Nat)) × TicTacToe) (depth : Nat) (c1 c2 : Player)
    (hst : ∀ t' d' p' a' b', (rec t' d' p' a' b').2 = t')
    (hct : ∀ s' B' d' p' a' b', (rec ⟨s', B', c1⟩ d' p' a' b').1 =
      (rec ⟨s', B', c2⟩ d' p' a' b').1) :
    ∀ (l : List (Nat × Nat)) (s : Nat) (B : List (List (Option Player)))
      (a b m : Int) (bst : Option (Nat × Nat)),
      (minLoop rec depth ⟨s, B, c1⟩ l a b m bst).1 =
        (minLoop rec depth ⟨s, B, c2⟩ l a b m bst).1
  | [], s, B, a, b, m, bst => rfl
  | (r, c) :: rest, s, B, a, b, m, bst => by
    have h1 := hct s (B.set r ((B.getD r []).set c (some Player.O)))
      (depth + 1) Player.X a b
    simp only [minLoop, setCell, hst, h1]
    split
    · rfl
    · exact minLoop_ct rec depth c1 c2 hst hct rest s _ a _ _ _

theorem minmaxFuel_ct :
    ∀ (fuel : Nat) (s : Nat) (B : List (List (Option Player)))
      (c1 c2 : Player) (d : Nat) (p : Player) (a b : Int),
      (minmaxFuel fuel ⟨s, B, c1⟩ d p a b).1 =
        (minmaxFuel fuel ⟨s, B, c2⟩ d p a b).1
  | 0, s, B, c1, c2, d, p, a, b => rfl
  | fuel + 1, s, B, c1, c2, d, p, a, b => by
    simp only [minmaxFuel]
    rw [show evaluate ⟨s, B, c2⟩ = evaluate ⟨s, B, c1⟩ from rfl,
      show is_full ⟨s, B, c2⟩ = is_full ⟨s, B, c1⟩ from rfl,
      show available_moves ⟨s, B, c2⟩ = available_moves ⟨s, B, c1⟩ from rfl]
    split
    · rfl
    · split
      · exact maxLoop_ct _ d c1 c2 (minmaxFuel_state fuel)
          (fun s' B' d' p' a' b' => minmaxFuel_ct fuel s' B' c1 c2 d' p' a' b')
          _ s B a b _ _
      · exact minLoop_ct _ d c1 c2 (minmaxFuel_state fuel)
          (fun s' B' d' p' a' b' => minmaxFuel_ct fuel s' B' c1 c2 d' p' a' b')
          _ s B a b _ _

/-! ### The evaluator against the specification's line predicate -/

theorem rowAll_iff {t : TicTacToe} {i : Nat} {p : Player} :
    t.rowAll i p = true ↔ ∀ c ∈ t.board.getD i [], c = some p := by
  simp [rowAll, List.all_eq_true, beqCell_eq_true]

theorem colAll_iff {t : TicTacToe} {i : Nat} {p : Player} :
    t.colAll i p = true ↔ ∀ j < t.size, t.cell j i = some p := by
  simp [colAll, List.all_eq_true, List.mem_range, beqCell_eq_true]

theorem diagAll_iff {t : TicTacToe} {p : Player} :
    t.diagAll p = true ↔ ∀ i < t.size, t.cell i i = some p := by
  simp [diagAll, List.all_eq_true, List.mem_range, beqCell_eq_true]

theorem antiDiagAll_iff {t : TicTacToe} {p : Player} :
    t.antiDiagAll p = true ↔
      ∀ i < t.size, t.cell i (t.size - 1 - i) = some p := by
  simp [antiDiagAll, List.all_eq_true, List.mem_range, beqCell_eq_true]

theorem hasLine_iff {t : TicTacToe} {p : Player} :
    t.hasLine p ↔ ((∃ i < t.size, t.rowAll i p = true) ∨
      (∃ i < t.size, t.colAll i p = true) ∨
      t.diagAll p = true ∨ t.antiDiagAll p = true) := by
  simp only [hasLine, rowAll_iff, colAll_iff, diagAll_iff, antiDiagAll_iff]

theorem check_winner_some {t : TicTacToe} {p : Player}
    (h : t.check_winner = some p) : t.hasLine p := by
  rw [hasLine_iff]
  rw [check_winner] at h
  rcases hfind : (List.range t.size).findSome? (fun i =>
      if t.rowAll i Player.X then some Player.X
      else if t.rowAll i Player.O then some Player.O
      else if t.colAll i Player.X then some Player.X
      else if t.colAll i Player.O then some Player.O
      else none) with _ | q
  · rw [hfind] at h
    by_cases h1 : t.diagAll Player.X = true
    · rw [if_pos h1] at h; cases h; exact Or.inr (Or.inr (Or.inl h1))
    · rw [if_neg h1] at h
      by_cases h2 : t.diagAll Player.O = true
      · rw [if_pos h2] at h; cases h; exact Or.inr (Or.inr (Or.inl h2))
      · rw [if_neg h2] at h
        by_cases h3 : t.antiDiagAll Player.X = true
        · rw [if_pos h3] at h; cases h; exact Or.inr (Or.inr (Or.inr h3))
        · rw [if_neg h3] at h
          by_cases h4 : t.antiDiagAll Player.O = true
          · rw [if_pos h4] at h; cases h; exact Or.inr (Or.inr (Or.inr h4))
          · rw [if_neg h4] at h; cases h
  · rw [hfind] at h
    cases h
    obtain ⟨i, hi, hfi⟩ := List.exists_of_findSome?_eq_some hfind
    rw [List.mem_range] at hi
    by_cases c1 : t.rowAll i Player.X = true
    · rw [if_pos c1] at hfi; cases hfi; exact Or.inl ⟨i, hi, c1⟩
    · rw [if_neg c1] at hfi
      by_cases c2 : t.rowAll i Player.O = true
      · rw [if_pos c2] at hfi; cases hfi; exact Or.inl ⟨i, hi, c2⟩
      · rw [if_neg c2] at hfi
        by_cases c3 : t.colAll i Player.X = true
        · rw [if_pos c3] at hfi; cases hfi; exact Or.inr (Or.inl ⟨i, hi, c3⟩)
        · rw [if_neg c3] at hfi
          by_cases c4 : t.colAll i Player.O = true
          · rw [if_pos c4] at hfi; cases hfi; exact Or.inr (Or.inl ⟨i, hi, c4⟩)
          · rw [if_neg c4] at hfi; cases hfi

theorem scan_entry_none {t : TicTacToe} {i : Nat}
    (h : (if t.rowAll i Player.X then some Player.X
      else if t.rowAll i Player.O then some Player.O
      else if t.colAll i Player.X then some Player.X
      else if t.colAll i Player.O then some Player.O
      else none) = (none : Option Player)) :
    t.rowAll i Player.X = false ∧ t.rowAll i Player.O = false ∧
      t.colAll i Player.X = false ∧ t.colAll i Player.O = false := by
  by_cases h1 : t.rowAll i Player.X = true
  · rw [if_pos h1] at h; cases h
  · rw [if_neg h1] at h
    by_cases h2 : t.rowAll i Player.O = true
    · rw [if_pos h2] at h; cases h
    · rw [if_neg h2] at h
      by_cases h3 : t.colAll i Player.X = true
      · rw [if_pos h3] at h; cases h
      · rw [if_neg h3] at h
        by_cases h4 : t.colAll i Player.O = true
        · rw [if_pos h4] at h; cases h
        · exact ⟨by simpa using h1, by simpa using h2,
            by simpa using h3, by simpa using h4⟩

theorem check_winner_none {t : TicTacToe} (h : t.check_winner = none)
    (p : Player) : ¬t.hasLine p := by
  rw [hasLine_iff]
  rw [check_winner] at h
  rcases hfind : (List.range t.size).findSome? (fun i =>
      if t.rowAll i Player.X then some Player.X
      else if t.rowAll i Player.O then some Player.O
      else if t.colAll i Player.X then some Player.X
      else if t.colAll i Player.O then some Player.O
      else none) with _ | q
  · rw [hfind] at h
    have hscan : ∀ i, i < t.size →
        t.rowAll i Player.X = false ∧ t.rowAll i Player.O = false ∧
          t.colAll i Player.X = false ∧ t.colAll i Player.O = false :=
      fun i hi => scan_entry_none
        (List.findSome?_eq_none_iff.mp hfind i (List.mem_range.mpr hi))
    by_cases h1 : t.diagAll Player.X = true
    · rw [if_pos h1] at h; cases h
    · rw [if_neg h1] at h
      by_cases h2 : t.diagAll Player.O = true
      · rw [if_pos h2] at h; cases h
      · rw [if_neg h2] at h
        by_cases h3 : t.antiDiagAll Player.X = true
        · rw [if_pos h3] at h; cases h
        · rw [if_neg h3] at h
          by_cases h4 : t.antiDiagAll Player.O = true
          · rw [if_pos h4] at h; cases h
          · rintro (⟨i, hi, hrow⟩ | ⟨i, hi, hcol⟩ | hd | had)
            · cases p with
              | X => rw [(hscan i hi).1] at hrow; cases hrow
              | O => rw [(hscan i hi).2.1] at hrow; cases hrow
            · cases p with
              | X => rw [(hscan i hi).2.2.1] at hcol; cases hcol
              | O => rw [(hscan i hi).2.2.2] at hcol; cases hcol
            · cases p with
              | X => exact h1 hd
              | O => exact h2 hd
            · cases p with
              | X => exact h3 had
              | O => exact h4 had
  · rw [hfind] at h
    cases h

/-! ### The stateful loops compute the pure runners -/

theorem maxLoop_eq_run (rec : TicTacToe → Nat → Player → Int → Int →
      (Int × Option (Nat × Nat)) × TicTacToe) (depth : Nat) (t : TicTacToe)
    (hst : ∀ t' d' p' a' b', (rec t' d' p' a' b').2 = t') :
    ∀ (l : List (Nat × Nat)) (a b m : Int) (bst : Option (Nat × Nat)),
      (∀ mv ∈ l, t.cell mv.1 mv.2 = none) →
      maxLoop rec depth t l a b m bst =
        (maxRun (fun mv a' b' => (rec (t.setCell mv.1 mv.2 (some Player.X))
          (depth + 1) Player.O a' b').1.1) l a b m bst, t)
  | [], a, b, m, bst, _ => rfl
  | (r, c) :: rest, a, b, m, bst, h => by
    have hcancel : ((rec (t.setCell r c (some Player.X)) (depth + 1) Player.O
        a b).2).setCell r c none = t := by
      rw [hst, setCell_cancel _ _ _ _ (h (r, c) (by simp))]
    simp only [maxLoop, maxRun, hcancel]
    split
    · rfl
    · exact maxLoop_eq_run rec depth t hst rest _ b _ _
        fun mv hmv => h mv (List.mem_cons_of_mem _ hmv)

theorem minLoop_eq_run (rec : TicTacToe → Nat → Player → Int → Int →
      (Int × Option (Nat × Nat)) × TicTacToe) (depth : Nat) (t : TicTacToe)
    (hst : ∀ t' d' p' a' b', (rec t' d' p' a' b').2 = t') :
    ∀ (l : List (Nat × Nat)) (a b m : Int) (bst : Option (Nat × Nat)),
      (∀ mv ∈ l, t.cell mv.1 mv.2 = none) →
      minLoop rec depth t l a b m bst =
        (minRun (fun mv a' b' => (rec (t.setCell mv.1 mv.2 (some Player.O))
          (depth + 1) Player.X a' b').1.1) l a b m bst, t)
  | [], a, b, m, bst, _ => rfl
  | (r, c) :: rest, a, b, m, bst, h => by
    have hcancel : ((rec (t.setCell r c (some Player.O)) (depth + 1) Player.X
        a b).2).setCell r c none = t := by
      rw [hst, setCell_cancel _ _ _ _ (h (r, c) (by simp))]
    simp only [minLoop, minRun, hcancel]
    split
    · rfl
    · exact minLoop_eq_run rec depth t hst rest a _ _ _
        fun mv hmv => h mv (List.mem_cons_of_mem _ hmv)

theorem refMaxLoop_eq_run
    (rec : TicTacToe → Player → Int × Option (Nat × Nat)) (t : TicTacToe) :
    ∀ (l : List (Nat × Nat)) (m : Int) (bst : Option (Nat × Nat)),
      refMaxLoop rec t l m bst = refMaxRun (fun mv =>
        (rec (t.setCell mv.1 mv.2 (some Player.X)) Player.O).1) l m bst
  | [], m, bst => rfl
  | (r, c) :: rest, m, bst => by
    simp only [refMaxLoop, refMaxRun]
    split
    · exact refMaxLoop_eq_run rec t rest _ _
    · exact refMaxLoop_eq_run rec t rest _ _

theorem refMinLoop_eq_run
    (rec : TicTacToe → Player → Int × Option (Nat × Nat)) (t : TicTacToe) :
    ∀ (l : List (Nat × Nat)) (m : Int) (bst : Option (Nat × Nat)),
      refMinLoop rec t l m bst = refMinRun (fun mv =>
        (rec (t.setCell mv.1 mv.2 (some Player.O)) Player.X).1) l m bst
  | [], m, bst => rfl
  | (r, c) :: rest, m, bst => by
    simp only [refMinLoop, refMinRun]
    split
    · exact refMinLoop_eq_run rec t rest _ _
    · exact refMinLoop_eq_run rec t rest _ _

/-! ### Elementary facts about the runners -/

theorem maxRun_val_ge_acc (ev : Nat × Nat → Int → Int → Int) :
    ∀ (l : List (Nat × Nat)) (a b m : Int) (bst : Option (Nat × Nat)),
      m ≤ (maxRun ev l a b m bst).1
  | [], _, _, m, _ => le_refl m
  | mv :: rest, a, b, m, bst => by
    have hm' : m ≤ if ev mv a b > m then ev mv a b else m := by
      split
      next hgt => exact le_of_lt hgt
      next => exact le_refl m
    simp only [maxRun]
    split
    · exact hm'
    · exact le_trans hm' (maxRun_val_ge_acc ev rest _ b _ _)

theorem minRun_val_le_acc (ev : Nat × Nat → Int → Int → Int) :
    ∀ (l : List (Nat × Nat)) (a b m : Int) (bst : Option (Nat × Nat)),
      (minRun ev l a b m bst).1 ≤ m
  | [], _, _, m, _ => le_refl m
  | mv :: rest, a, b, m, bst => by
    have hm' : (if ev mv a b < m then ev mv a b else m) ≤ m := by
      split
      next hlt => exact le_of_lt hlt
      next => exact le_refl m
    simp only [minRun]
    split
    · exact hm'
    · exact le_trans (minRun_val_le_acc ev rest a _ _ _) hm'

theorem maxRun_val_le (ev : Nat × Nat → Int → Int → Int) (u : Int) :
    ∀ (l : List (Nat × Nat)) (a b m : Int) (bst : Option (Nat × Nat)),
      m ≤ u → (∀ mv ∈ l, ∀ a' b', ev mv a' b' ≤ u) →
      (maxRun ev l a b m bst).1 ≤ u
  | [], _, _, m, _, hm, _ => hm
  | mv :: rest, a, b, m, bst, hm, he => by
    have hm' : (if ev mv a b > m then ev mv a b else m) ≤ u := by
      split
      next => exact he mv (by simp) a b
      next => exact hm
    simp only [maxRun]
    split
    · exact hm'
    · exact maxRun_val_le ev u rest _ b _ _ hm'
        fun mv' hmv' => he mv' (List.mem_cons_of_mem _ hmv')

theorem minRun_val_ge (ev : Nat × Nat → Int → Int → Int) (u : Int) :
    ∀ (l : List (Nat × Nat)) (a b m : Int) (bst : Option (Nat × Nat)),
      u ≤ m → (∀ mv ∈ l, ∀ a' b', u ≤ ev mv a' b') →
      u ≤ (minRun ev l a b m bst).1
  | [], _, _, m, _, hm, _ => hm
  | mv :: rest, a, b, m, bst, hm, he => by
    have hm' : u ≤ if ev mv a b < m then ev mv a b else m := by
      split
      next => exact he mv (by simp) a b
      next => exact hm
    simp only [minRun]
    split
    · exact hm'
    · exact minRun_val_ge ev u rest a _ _ _ hm'
        fun mv' hmv' => he mv' (List.mem_cons_of_mem _ hmv')

theorem maxRun_val_ge_head (ev : Nat × Nat → Int → Int → Int)
    (mv : Nat × Nat) (rest : List (Nat × Nat)) (a b m : Int)
    (bst : Option (Nat × Nat)) :
    ev mv a b ≤ (maxRun ev (mv :: rest) a b m bst).1 := by
  have hm' : ev mv a b ≤ if ev mv a b > m then ev mv a b else m := by
    split
    next => exact le_refl _
    next hng => exact le_of_not_lt hng
  simp only [maxRun]
  split
  · exact hm'
  · exact le_trans hm' (maxRun_val_ge_acc ev rest _ b _ _)

theorem minRun_val_le_head (ev : Nat × Nat → Int → Int → Int)
    (mv : Nat × Nat) (rest : List (Nat × Nat)) (a b m : Int)
    (bst : Option (Nat × Nat)) :
    (minRun ev (mv :: rest) a b m bst).1 ≤ ev mv a b := by
  have hm' : (if ev mv a b < m then ev mv a b else m) ≤ ev mv a b := by
    split
    next => exact le_refl _
    next hng => exact le_of_not_lt hng
  simp only [minRun]
  split
  · exact hm'
  · exact le_trans (minRun_val_le_acc ev rest a _ _ _) hm'

theorem maxRun_move_mem (ev : Nat × Nat → Int → Int → Int) :
    ∀ (l : List (Nat × Nat)) (a b m : Int) (bst : Option (Nat × Nat)),
      (maxRun ev l a b m bst).2 = bst ∨
        ∃ mv ∈ l, (maxRun ev l a b m bst).2 = some mv
  | [], _, _, _, _ => Or.inl rfl
  | mv :: rest, a, b, m, bst => by
    simp only [maxRun]
    split
    · split
      next => exact Or.inr ⟨mv, by simp⟩
      next => exact Or.inl rfl
    · rcases maxRun_move_mem ev rest (max a (ev mv a b)) b
        (if ev mv a b > m then ev mv a b else m)
        (if ev mv a b > m then some mv else bst) with heq | ⟨mv', hmv', heq⟩
      · rw [heq]
        split
        next => exact Or.inr ⟨mv, by simp⟩
        next => exact Or.inl rfl
      · exact Or.inr ⟨mv', List.mem_cons_of_mem _ hmv', heq⟩

theorem minRun_move_mem (ev : Nat × Nat → Int → Int → Int) :
    ∀ (l : List (Nat × Nat)) (a b m : Int) (bst : Option (Nat × Nat)),
      (minRun ev l a b m bst).2 = bst ∨
        ∃ mv ∈ l, (minRun ev l a b m bst).2 = some mv
  | [], _, _, _, _ => Or.inl rfl
  | mv :: rest, a, b, m, bst => by
    simp only [minRun]
    split
    · split
      next => exact Or.inr ⟨mv, by simp⟩
      next => exact Or.inl rfl
    · rcases minRun_move_mem ev rest a (min b (ev mv a b))
        (if ev mv a b < m then ev mv a b else m)
        (if ev mv a b < m then some mv else bst) with heq | ⟨mv', hmv', heq⟩
      · rw [heq]
        split
        next => exact Or.inr ⟨mv, by simp⟩
        next => exact Or.inl rfl
      · exact Or.inr ⟨mv', List.mem_cons_of_mem _ hmv', heq⟩

theorem maxRun_move_some (ev : Nat × Nat → Int → Int → Int) :
    ∀ (l : List (Nat × Nat)) (a b m : Int) (mv0 : Nat × Nat),
      (maxRun ev l a b m (some mv0)).2 ≠ none
  | [], _, _, _, mv0 => by simp [maxRun]
  | mv :: rest, a, b, m, mv0 => by
    simp only [maxRun]
    split
    · split
      next => simp
      next => simp
    · split
      next => exact maxRun_move_some ev rest _ b _ _
      next => exact maxRun_move_some ev rest _ b _ _

theorem minRun_move_some (ev : Nat × Nat → Int → Int → Int) :
    ∀ (l : List (Nat × Nat)) (a b m : Int) (mv0 : Nat × Nat),
      (minRun ev l a b m (some mv0)).2 ≠ none
  | [], _, _, _, mv0 => by simp [minRun]
  | mv :: rest, a, b, m, mv0 => by
    simp only [minRun]
    split
    · split
      next => simp
      next => simp
    · split
      next => exact minRun_move_some ev rest a _ _ _
      next => exact minRun_move_some ev rest a _ _ _

/-! ### The search value always lies in [-1, 1] -/

theorem evaluate_cases (t : TicTacToe) :
    t.evaluate = 1 ∨ t.evaluate = -1 ∨ t.evaluate = 0 := by
  rcases h : t.check_winner with _ | q
  · right; right; simp [evaluate, h]
  · cases q
    · left; simp [evaluate, h]
    · right; left; simp [evaluate, h]

theorem evaluate_bounds (t : TicTacToe) :
    -1 ≤ t.evaluate ∧ t.evaluate ≤ 1 := by
  rcases evaluate_cases t with h | h | h <;> rw [h] <;> exact ⟨by decide, by decide⟩

theorem available_moves_ne_nil {t : TicTacToe} (h : t.WF)
    (hnf : t.is_full ≠ true) : t.available_moves ≠ [] := by
  intro hnil
  exact hnf ((available_moves_eq_nil_iff h).mp hnil)

theorem minmaxFuel_bounds :
    ∀ (fuel : Nat) (t : TicTacToe) (d : Nat) (p : Player) (a b : Int),
      t.WF → -1 ≤ (minmaxFuel fuel t d p a b).1.1 ∧
        (minmaxFuel fuel t d p a b).1.1 ≤ 1
  | 0, t, d, p, a, b, h => by
    refine ⟨?_, ?_⟩ <;> simp [minmaxFuel]
  | fuel + 1, t, d, p, a, b, h => by
    simp only [minmaxFuel]
    split
    next hterm => exact evaluate_bounds t
    next hterm =>
      have hnf : t.is_full ≠ true := fun hf => hterm (Or.inr (Or.inr hf))
      obtain ⟨mv0, rest, hcons⟩ :=
        List.exists_cons_of_ne_nil (available_moves_ne_nil h hnf)
      split
      next hp =>
        rw [maxLoop_eq_run _ _ _ (minmaxFuel_state fuel) _ a b _ _
          (fun mv hmv => available_moves_cell_none hmv)]
        constructor
        · refine le_trans ?_ (hcons ▸ maxRun_val_ge_head _ mv0 rest a b intMin none)
          exact (minmaxFuel_bounds fuel _ (d + 1) Player.O a b
            (WF_setCell h mv0.1 mv0.2 (some Player.X))).1
        · exact maxRun_val_le _ 1 _ a b intMin none (by decide)
            fun mv _ a' b' => (minmaxFuel_bounds fuel _ (d + 1) Player.O a' b'
              (WF_setCell h mv.1 mv.2 (some Player.X))).2
      next hp =>
        rw [minLoop_eq_run _ _ _ (minmaxFuel_state fuel) _ a b _ _
          (fun mv hmv => available_moves_cell_none hmv)]
        constructor
        · exact minRun_val_ge _ (-1) _ a b intMax none (by decide)
            fun mv _ a' b' => (minmaxFuel_bounds fuel _ (d + 1) Player.X a' b'
              (WF_setCell h mv.1 mv.2 (some Player.O))).1
        · refine le_trans (hcons ▸ minRun_val_le_head _ mv0 rest a b intMax none) ?_
          exact (minmaxFuel_bounds fuel _ (d + 1) Player.X a b
            (WF_setCell h mv0.1 mv0.2 (some Player.O))).2

/-! ### The recommended move: absent iff the position is terminal -/

theorem maxRun_ne_none (ev : Nat × Nat → Int → Int → Int) (mv0 : Nat × Nat)
    (rest : List (Nat × Nat)) (a b : Int) (hgt : ev mv0 a b > intMin) :
    (maxRun ev (mv0 :: rest) a b intMin none).2 ≠ none := by
  simp only [maxRun, if_pos hgt]
  split
  · simp
  · exact maxRun_move_some ev rest _ b _ mv0

theorem minRun_ne_none (ev : Nat × Nat → Int → Int → Int) (mv0 : Nat × Nat)
    (rest : List (Nat × Nat)) (a b : Int) (hlt : ev mv0 a b < intMax) :
    (minRun ev (mv0 :: rest) a b intMax none).2 ≠ none := by
  simp only [minRun, if_pos hlt]
  split
  · simp
  · exact minRun_move_some ev rest a _ _ mv0

theorem minmaxFuel_move_spec (fuel : Nat) (t : TicTacToe) (d : Nat)
    (p : Player) (a b : Int) (h : t.WF) :
    ((minmaxFuel (fuel + 1) t d p a b).1.2 = none ↔
      (t.evaluate = 1 ∨ t.evaluate = -1 ∨ t.is_full = true)) ∧
    (¬(t.evaluate = 1 ∨ t.evaluate = -1 ∨ t.is_full = true) →
      ∃ mv ∈ t.available_moves,
        (minmaxFuel (fuel + 1) t d p a b).1.2 = some mv) := by
  simp only [minmaxFuel]
  split
  next hterm =>
    exact ⟨⟨fun _ => hterm, fun _ => rfl⟩, fun hn => absurd hterm hn⟩
  next hterm =>
    have hnf : t.is_full ≠ true := fun hf => hterm (Or.inr (Or.inr hf))
    obtain ⟨mv0, rest, hcons⟩ :=
      List.exists_cons_of_ne_nil (available_moves_ne_nil h hnf)
    split
    next hp =>
      rw [maxLoop_eq_run _ _ _ (minmaxFuel_state fuel) _ a b _ _
        (fun mv hmv => available_moves_cell_none hmv), hcons]
      have hgt : (minmaxFuel fuel (t.setCell mv0.1 mv0.2 (some Player.X))
          (d + 1) Player.O a b).1.1 > intMin := by
        have hlow := (minmaxFuel_bounds fuel _ (d + 1) Player.O a b
          (WF_setCell h mv0.1 mv0.2 (some Player.X))).1
        exact lt_of_lt_of_le (by decide : intMin < -1) hlow
      have hne := maxRun_ne_none
        (fun mv a' b' => (minmaxFuel fuel (t.setCell mv.1 mv.2 (some Player.X))
          (d + 1) Player.O a' b').1.1) mv0 rest a b hgt
      refine ⟨⟨fun heq => absurd heq hne, fun hterm' => absurd hterm' hterm⟩,
        fun hn => ?_⟩
      rcases maxRun_move_mem
        (fun mv a' b' => (minmaxFuel fuel (t.setCell mv.1 mv.2 (some Player.X))
          (d + 1) Player.O a' b').1.1) (mv0 :: rest) a b intMin none with
        heq | ⟨mv, hmv, heq⟩
      · exact absurd heq hne
      · exact ⟨mv, hmv, heq⟩
    next hp =>
      rw [minLoop_eq_run _ _ _ (minmaxFuel_state fuel) _ a b _ _
        (fun mv hmv => available_moves_cell_none hmv), hcons]
      have hlt : (minmaxFuel fuel (t.setCell mv0.1 mv0.2 (some Player.O))
          (d + 1) Player.X a b).1.1 < intMax := by
        have hhigh := (minmaxFuel_bounds fuel _ (d + 1) Player.X a b
          (WF_setCell h mv0.1 mv0.2 (some Player.O))).2
        exact lt_of_le_of_lt hhigh (by decide : (1 : Int) < intMax)
      have hne := minRun_ne_none
        (fun mv a' b' => (minmaxFuel fuel (t.setCell mv.1 mv.2 (some Player.O))
          (d + 1) Player.X a' b').1.1) mv0 rest a b hlt
      refine ⟨⟨fun heq => absurd heq hne, fun hterm' => absurd hterm' hterm⟩,
        fun hn => ?_⟩
      rcases minRun_move_mem
        (fun mv a' b' => (minmaxFuel fuel (t.setCell mv.1 mv.2 (some Player.O))
          (d + 1) Player.X a' b').1.1) (mv0 :: rest) a b intMax none with
        heq | ⟨mv, hmv, heq⟩
      · exact absurd heq hne
      · exact ⟨mv, hmv, heq⟩

/-! ### Facts about the running maximum / minimum folds -/

theorem foldMax_ge_init (ev : Nat × Nat → Int) :
    ∀ (l : List (Nat × Nat)) (m : Int), m ≤ foldMax ev l m
  | [], m => le_refl m
  | mv :: rest, m =>
    le_trans (le_max_left m (ev mv)) (foldMax_ge_init ev rest _)

theorem foldMin_le_init (ev : Nat × Nat → Int) :
    ∀ (l : List (Nat × Nat)) (m : Int), foldMin ev l m ≤ m
  | [], m => le_refl m
  | mv :: rest, m =>
    le_trans (foldMin_le_init ev rest _) (min_le_left m (ev mv))

theorem foldMax_mono_init (ev : Nat × Nat → Int) :
    ∀ (l : List (Nat × Nat)) {m1 m2 : Int}, m1 ≤ m2 →
      foldMax ev l m1 ≤ foldMax ev l m2
  | [], _, _, h => h
  | mv :: rest, m1, m2, h =>
    foldMax_mono_init ev rest (max_le_max h (le_refl (ev mv)))

theorem foldMin_mono_init (ev : Nat × Nat → Int) :
    ∀ (l : List (Nat × Nat)) {m1 m2 : Int}, m1 ≤ m2 →
      foldMin ev l m1 ≤ foldMin ev l m2
  | [], _, _, h => h
  | mv :: rest, m1, m2, h =>
    foldMin_mono_init ev rest (min_le_min h (le_refl (ev mv)))

theorem foldMax_le (ev : Nat × Nat → Int) {u : Int} :
    ∀ (l : List (Nat × Nat)) {m : Int}, m ≤ u → (∀ mv ∈ l, ev mv ≤ u) →
      foldMax ev l m ≤ u
  | [], _, hm, _ => hm
  | mv :: rest, m, hm, he =>
    foldMax_le ev rest (max_le hm (he mv (by simp)))
      fun mv' h' => he mv' (List.mem_cons_of_mem _ h')

theorem foldMin_ge (ev : Nat × Nat → Int) {u : Int} :
    ∀ (l : List (Nat × Nat)) {m : Int}, u ≤ m → (∀ mv ∈ l, u ≤ ev mv) →
      u ≤ foldMin ev l m
  | [], _, hm, _ => hm
  | mv :: rest, m, hm, he =>
    foldMin_ge ev rest (le_min hm (he mv (by simp)))
      fun mv' h' => he mv' (List.mem_cons_of_mem _ h')

theorem foldMax_ge_mem (ev : Nat × Nat → Int) :
    ∀ (l : List (Nat × Nat)) {mv : Nat × Nat}, mv ∈ l → ∀ (m : Int),
      ev mv ≤ foldMax ev l m
  | [], _, h, _ => absurd h (by simp)
  | mv0 :: rest, mv, h, m => by
    rcases List.mem_cons.mp h with rfl | h'
    · exact le_trans (le_max_right m (ev mv)) (foldMax_ge_init ev rest _)
    · exact foldMax_ge_mem ev rest h' _

theorem foldMin_le_mem (ev : Nat × Nat → Int) :
    ∀ (l : List (Nat × Nat)) {mv : Nat × Nat}, mv ∈ l → ∀ (m : Int),
      foldMin ev l m ≤ ev mv
  | [], _, h, _ => absurd h (by simp)
  | mv0 :: rest, mv, h, m => by
    rcases List.mem_cons.mp h with rfl | h'
    · exact le_trans (foldMin_le_init ev rest _) (min_le_right m (ev mv))
    · exact foldMin_le_mem ev rest h' _

theorem foldMax_eq_init_or_mem (ev : Nat × Nat → Int) :
    ∀ (l : List (Nat × Nat)) (m : Int),
      foldMax ev l m = m ∨ ∃ mv ∈ l, foldMax ev l m = ev mv
  | [], m => Or.inl rfl
  | mv0 :: rest, m => by
    rcases foldMax_eq_init_or_mem ev rest (max m (ev mv0)) with h | ⟨mv, hmv, h⟩
    · rcases max_choice m (ev mv0) with hm | hm
      · exact Or.inl (by rw [foldMax, h, hm])
      · exact Or.inr ⟨mv0, by simp, by rw [foldMax, h, hm]⟩
    · exact Or.inr ⟨mv, List.mem_cons_of_mem _ hmv, by rw [foldMax, h]⟩

theorem foldMin_eq_init_or_mem (ev : Nat × Nat → Int) :
    ∀ (l : List (Nat × Nat)) (m : Int),
      foldMin ev l m = m ∨ ∃ mv ∈ l, foldMin ev l m = ev mv
  | [], m => Or.inl rfl
  | mv0 :: rest, m => by
    rcases foldMin_eq_init_or_mem ev rest (min m (ev mv0)) with h | ⟨mv, hmv, h⟩
    · rcases min_choice m (ev mv0) with hm | hm
      · exact Or.inl (by rw [foldMin, h, hm])
      · exact Or.inr ⟨mv0, by simp, by rw [foldMin, h, hm]⟩
    · exact Or.inr ⟨mv, List.mem_cons_of_mem _ hmv, by rw [foldMin, h]⟩

theorem refMaxRun_val (ev : Nat × Nat → Int) :
    ∀ (l : List (Nat × Nat)) (m : Int) (bst : Option (Nat × Nat)),
      (refMaxRun ev l m bst).1 = foldMax ev l m
  | [], m, bst => rfl
  | mv :: rest, m, bst => by
    simp only [refMaxRun, foldMax]
    split
    next hgt => rw [max_eq_right (le_of_lt hgt)]; exact refMaxRun_val ev rest _ _
    next hngt =>
      rw [max_eq_left (le_of_not_lt hngt)]; exact refMaxRun_val ev rest _ _

theorem refMinRun_val (ev : Nat × Nat → Int) :
    ∀ (l : List (Nat × Nat)) (m : Int) (bst : Option (Nat × Nat)),
      (refMinRun ev l m bst).1 = foldMin ev l m
  | [], m, bst => rfl
  | mv :: rest, m, bst => by
    simp only [refMinRun, foldMin]
    split
    next hlt => rw [min_eq_right (le_of_lt hlt)]; exact refMinRun_val ev rest _ _
    next hnlt =>
      rw [min_eq_left (le_of_not_lt hnlt)]; exact refMinRun_val ev rest _ _

/-- The reference minimax value always lies in `[-1, 1]`. -/
theorem refMinimaxFuel_bounds :
    ∀ (fuel : Nat) (t : TicTacToe) (p : Player), t.WF →
      -1 ≤ (refMinimaxFuel fuel t p).1 ∧ (refMinimaxFuel fuel t p).1 ≤ 1
  | 0, t, p, h => by
    refine ⟨?_, ?_⟩ <;> simp [refMinimaxFuel]
  | fuel + 1, t, p, h => by
    simp only [refMinimaxFuel]
    split
    next hterm => exact evaluate_bounds t
    next hterm =>
      have hnf : t.is_full ≠ true := fun hf => hterm (Or.inr (Or.inr hf))
      obtain ⟨mv0, rest, hcons⟩ :=
        List.exists_cons_of_ne_nil (available_moves_ne_nil h hnf)
      split
      next hp =>
        rw [refMaxLoop_eq_run, refMaxRun_val]
        constructor
        · refine le_trans ((refMinimaxFuel_bounds fuel _ Player.O
            (WF_setCell h mv0.1 mv0.2 (some Player.X))).1) ?_
          exact hcons ▸ foldMax_ge_mem _ (mv0 :: rest)
            (List.mem_cons_self mv0 rest) intMin
        · exact foldMax_le _ _ (by decide)
            fun mv _ => (refMinimaxFuel_bounds fuel _ Player.O
              (WF_setCell h mv.1 mv.2 (some Player.X))).2
      next hp =>
        rw [refMinLoop_eq_run, refMinRun_val]
        constructor
        · exact foldMin_ge _ _ (by decide)
            fun mv _ => (refMinimaxFuel_bounds fuel _ Player.X
              (WF_setCell h mv.1 mv.2 (some Player.O))).1
        · refine le_trans (hcons ▸ foldMin_le_mem _ (mv0 :: rest)
            (List.mem_cons_self mv0 rest) intMax) ?_
          exact (refMinimaxFuel_bounds fuel _ Player.X
            (WF_setCell h mv0.1 mv0.2 (some Player.O))).2

/-! ### The fail-soft alpha-beta invariant for the loops -/

theorem maxRun_tri (ev2 : Nat × Nat → Int → Int → Int) (ev1 : Nat × Nat → Int)
    (b : Int) :
    ∀ (l : List (Nat × Nat)) (a m : Int) (bst : Option (Nat × Nat)),
      (∀ mv ∈ l, ∀ a', intMin ≤ a' → a' < b →
        triSpec (ev2 mv a' b) (ev1 mv) a' b) →
      intMin ≤ m → m ≤ a → a < b →
      triSpec (maxRun ev2 l a b m bst).1 (foldMax ev1 l m) a b
  | [], a, m, bst, _, hm0, hma, hab => by
    refine ⟨fun hva => ⟨le_refl m, hva⟩, fun hbv => ?_, fun hav _ => ?_⟩
    · exact absurd hbv (not_le.mpr (lt_of_le_of_lt hma hab))
    · exact absurd hav (not_lt.mpr hma)
  | mv :: rest, a, m, bst, H, hm0, hma, hab => by
    obtain ⟨T1, T2, T3⟩ :=
      H mv (List.mem_cons_self mv rest) a (le_trans hm0 hma) hab
    have Hrest := fun mv' h' => H mv' (List.mem_cons_of_mem _ h')
    simp only [maxRun, foldMax]
    rcases le_or_lt (ev1 mv) a with hva | hva
    · obtain ⟨hve, hea⟩ := T1 hva
      have hmax : max a (ev2 mv a b) = a := max_eq_left hea
      rw [hmax, if_neg (not_le.mpr hab)]
      have hm'a : (if ev2 mv a b > m then ev2 mv a b else m) ≤ a := by
        split
        next => exact hea
        next => exact hma
      have hm'0 : intMin ≤ (if ev2 mv a b > m then ev2 mv a b else m) := by
        split
        next hgt => exact le_trans hm0 (le_of_lt hgt)
        next => exact hm0
      obtain ⟨I1, I2, I3⟩ := maxRun_tri ev2 ev1 b rest a
        (if ev2 mv a b > m then ev2 mv a b else m)
        (if ev2 mv a b > m then some mv else bst) Hrest hm'0 hm'a hab
      have hinit : max m (ev1 mv) ≤
          (if ev2 mv a b > m then ev2 mv a b else m) := by
        split
        next hgt => exact max_le (le_of_lt hgt) hve
        next hngt => exact max_le (le_refl m) (le_trans hve (not_lt.mp hngt))
      have hVV' : foldMax ev1 rest (max m (ev1 mv)) ≤
          foldMax ev1 rest (if ev2 mv a b > m then ev2 mv a b else m) :=
        foldMax_mono_init ev1 rest hinit
      refine ⟨fun hVa => ?_, fun hbV => ?_, fun haV hVb => ?_⟩
      · have hV'a : foldMax ev1 rest
            (if ev2 mv a b > m then ev2 mv a b else m) ≤ a :=
          foldMax_le ev1 rest hm'a
            fun mv' h' => le_trans (foldMax_ge_mem ev1 rest h' _) hVa
        obtain ⟨i1, i2⟩ := I1 hV'a
        exact ⟨le_trans hVV' i1, i2⟩
      · rcases foldMax_eq_init_or_mem ev1 rest (max m (ev1 mv)) with
          hVi | ⟨mv', hmem', hVe⟩
        · exfalso
          rw [hVi] at hbV
          exact absurd hbV (not_le.mpr (lt_of_le_of_lt (max_le hma hva) hab))
        · have hbV' : b ≤ foldMax ev1 rest
              (if ev2 mv a b > m then ev2 mv a b else m) :=
            le_trans (hVe ▸ hbV) (foldMax_ge_mem ev1 rest hmem' _)
          obtain ⟨i1, i2⟩ := I2 hbV'
          refine ⟨i1, ?_⟩
          rcases foldMax_eq_init_or_mem ev1 rest
            (if ev2 mv a b > m then ev2 mv a b else m) with
            hA | ⟨mv'', hmem'', hB⟩
          · exact absurd
              (le_trans i1 (le_trans i2 (le_trans (le_of_eq hA) hm'a)))
              (not_le.mpr hab)
          · refine le_trans i2 ?_
            rw [hB]
            exact foldMax_ge_mem ev1 rest hmem'' (max m (ev1 mv))
      · have hV'V : foldMax ev1 rest
            (if ev2 mv a b > m then ev2 mv a b else m) =
            foldMax ev1 rest (max m (ev1 mv)) := by
          refine le_antisymm ?_ hVV'
          exact foldMax_le ev1 rest (le_trans hm'a (le_of_lt haV))
            fun mv' h' => foldMax_ge_mem ev1 rest h' _
        rw [← hV'V] at haV hVb ⊢
        exact I3 haV hVb
    · rcases lt_or_le (ev1 mv) b with hvb | hvb
      · have he : ev2 mv a b = ev1 mv := T3 hva hvb
        have hmv2 : ev1 mv > m := lt_of_le_of_lt hma hva
        rw [he]
        simp only [if_pos hmv2]
        rw [max_eq_right (le_of_lt hva), if_neg (not_le.mpr hvb),
          max_eq_right (le_of_lt hmv2)]
        obtain ⟨I1, I2, I3⟩ := maxRun_tri ev2 ev1 b rest (ev1 mv) (ev1 mv)
          (some mv) Hrest (le_trans hm0 (le_of_lt hmv2)) (le_refl _) hvb
        refine ⟨fun hVa => ?_, I2, fun haV hVb => ?_⟩
        · exact absurd (lt_of_lt_of_le hva (foldMax_ge_init ev1 rest _))
            (not_lt.mpr hVa)
        · rcases lt_or_le (ev1 mv) (foldMax ev1 rest (ev1 mv)) with hlt | hle
          · exact I3 hlt hVb
          · have hVeq : foldMax ev1 rest (ev1 mv) = ev1 mv :=
              le_antisymm hle (foldMax_ge_init ev1 rest _)
            obtain ⟨i1, i2⟩ := I1 (le_of_eq hVeq)
            exact le_antisymm (le_trans i2 (le_of_eq hVeq.symm)) i1
      · obtain ⟨hbe, hev⟩ := T2 hvb
        have hgt : ev2 mv a b > m :=
          lt_of_lt_of_le (lt_of_le_of_lt hma hab) hbe
        simp only [if_pos hgt]
        rw [if_pos (le_trans hbe (le_max_right a (ev2 mv a b)))]
        have hVv : ev1 mv ≤ foldMax ev1 rest (max m (ev1 mv)) :=
          le_trans (le_max_right m (ev1 mv)) (foldMax_ge_init ev1 rest _)
        refine ⟨fun hVa => ?_, fun hbV => ⟨hbe, le_trans hev hVv⟩,
          fun haV hVb => ?_⟩
        · exact absurd (le_trans (le_trans hvb hVv) hVa) (not_le.mpr hab)
        · exact absurd (lt_of_le_of_lt (le_trans hvb hVv) hVb) (lt_irrefl b)

theorem minRun_tri (ev2 : Nat × Nat → Int → Int → Int) (ev1 : Nat × Nat → Int)
    (a : Int) :
    ∀ (l : List (Nat × Nat)) (b m : Int) (bst : Option (Nat × Nat)),
      (∀ mv ∈ l, ∀ b', b' ≤ intMax → a < b' →
        triSpec (ev2 mv a b') (ev1 mv) a b') →
      m ≤ intMax → b ≤ m → a < b →
      triSpec (minRun ev2 l a b m bst).1 (foldMin ev1 l m) a b
  | [], b, m, bst, _, hm0, hbm, hab => by
    refine ⟨fun hva => ?_, fun hbv => ⟨hbv, le_refl m⟩, fun _ hvb => ?_⟩
    · exact absurd hva (not_le.mpr (lt_of_lt_of_le hab hbm))
    · exact absurd hvb (not_lt.mpr hbm)
  | mv :: rest, b, m, bst, H, hm0, hbm, hab => by
    obtain ⟨T1, T2, T3⟩ :=
      H mv (List.mem_cons_self mv rest) b (le_trans hbm hm0) hab
    have Hrest := fun mv' h' => H mv' (List.mem_cons_of_mem _ h')
    simp only [minRun, foldMin]
    rcases le_or_lt b (ev1 mv) with hvb | hvb
    · obtain ⟨hbe, hev⟩ := T2 hvb
      have hmin : min b (ev2 mv a b) = b := min_eq_left hbe
      rw [hmin, if_neg (not_le.mpr hab)]
      have hbm' : b ≤ (if ev2 mv a b < m then ev2 mv a b else m) := by
        split
        next => exact hbe
        next => exact hbm
      have hm'0 : (if ev2 mv a b < m then ev2 mv a b else m) ≤ intMax := by
        split
        next hlt => exact le_trans (le_of_lt hlt) hm0
        next => exact hm0
      obtain ⟨I1, I2, I3⟩ := minRun_tri ev2 ev1 a rest b
        (if ev2 mv a b < m then ev2 mv a b else m)
        (if ev2 mv a b < m then some mv else bst) Hrest hm'0 hbm' hab
      have hinit : (if ev2 mv a b < m then ev2 mv a b else m) ≤
          min m (ev1 mv) := by
        split
        next hlt => exact le_min (le_of_lt hlt) hev
        next hnlt => exact le_min (le_refl m) (le_trans (not_lt.mp hnlt) hev)
      have hVV' : foldMin ev1 rest
            (if ev2 mv a b < m then ev2 mv a b else m) ≤
          foldMin ev1 rest (min m (ev1 mv)) :=
        foldMin_mono_init ev1 rest hinit
      refine ⟨fun hVa => ?_, fun hbV => ?_, fun haV hVb => ?_⟩
      · rcases foldMin_eq_init_or_mem ev1 rest (min m (ev1 mv)) with
          hVi | ⟨mv', hmem', hVe⟩
        · exfalso
          rw [hVi] at hVa
          exact absurd (le_trans (le_min hbm hvb) hVa) (not_le.mpr hab)
        · have hV'a : foldMin ev1 rest
              (if ev2 mv a b < m then ev2 mv a b else m) ≤ a :=
            le_trans (foldMin_le_mem ev1 rest hmem' _) (hVe ▸ hVa)
          obtain ⟨i1, i2⟩ := I1 hV'a
          refine ⟨?_, i2⟩
          rcases foldMin_eq_init_or_mem ev1 rest
            (if ev2 mv a b < m then ev2 mv a b else m) with
            hA | ⟨mv'', hmem'', hB⟩
          · exact absurd
              (le_trans (le_trans hbm' (le_of_eq hA.symm)) (le_trans i1 i2))
              (not_le.mpr hab)
          · refine le_trans ?_ i1
            rw [hB]
            exact foldMin_le_mem ev1 rest hmem'' (min m (ev1 mv))
      · have hbV' : b ≤ foldMin ev1 rest
            (if ev2 mv a b < m then ev2 mv a b else m) :=
          foldMin_ge ev1 rest hbm'
            fun mv' h' => le_trans hbV (foldMin_le_mem ev1 rest h' _)
        obtain ⟨i1, i2⟩ := I2 hbV'
        exact ⟨i1, le_trans i2 hVV'⟩
      · have hV'V : foldMin ev1 rest
            (if ev2 mv a b < m then ev2 mv a b else m) =
            foldMin ev1 rest (min m (ev1 mv)) := by
          refine le_antisymm hVV' ?_
          exact foldMin_ge ev1 rest (le_trans (le_of_lt hVb) hbm')
            fun mv' h' => foldMin_le_mem ev1 rest h' _
        rw [← hV'V] at haV hVb ⊢
        exact I3 haV hVb
    · rcases lt_or_le a (ev1 mv) with hva | hva
      · have he : ev2 mv a b = ev1 mv := T3 hva hvb
        have hmv2 : ev1 mv < m := lt_of_lt_of_le hvb hbm
        rw [he]
        simp only [if_pos hmv2]
        rw [min_eq_right (le_of_lt hvb), if_neg (not_le.mpr hva),
          min_eq_right (le_of_lt hmv2)]
        obtain ⟨I1, I2, I3⟩ := minRun_tri ev2 ev1 a rest (ev1 mv) (ev1 mv)
          (some mv) Hrest (le_trans (le_of_lt hmv2) hm0) (le_refl _) hva
        refine ⟨I1, fun hbV => ?_, fun haV hVb => ?_⟩
        · exact absurd (lt_of_le_of_lt (foldMin_le_init ev1 rest _) hvb)
            (not_lt.mpr hbV)
        · rcases lt_or_le (foldMin ev1 rest (ev1 mv)) (ev1 mv) with hlt | hle
          · exact I3 haV hlt
          · have hVeq : foldMin ev1 rest (ev1 mv) = ev1 mv :=
              le_antisymm (foldMin_le_init ev1 rest _) hle
            obtain ⟨i1, i2⟩ := I2 (le_of_eq hVeq.symm)
            exact le_antisymm i2 (le_trans (le_of_eq hVeq) i1)
      · obtain ⟨hve, hea⟩ := T1 hva
        have hlt : ev2 mv a b < m :=
          lt_of_le_of_lt hea (lt_of_lt_of_le hab hbm)
        simp only [if_pos hlt]
        rw [if_pos (le_trans (min_le_right b (ev2 mv a b)) hea)]
        have hVv : foldMin ev1 rest (min m (ev1 mv)) ≤ ev1 mv :=
          le_trans (foldMin_le_init ev1 rest _) (min_le_right m (ev1 mv))
        refine ⟨fun hVa => ⟨le_trans hVv hve, hea⟩, fun hbV => ?_,
          fun haV hVb => ?_⟩
        · exact absurd (le_trans hbV (le_trans hVv hva)) (not_le.mpr hab)
        · exact absurd (lt_of_lt_of_le haV (le_trans hVv hva)) (lt_irrefl a)

/-- The fail-soft contract holds between the alpha-beta search and the
reference minimax, at every window, for every fuel. -/
theorem alphaBeta_tri :
    ∀ (fuel : Nat) (t : TicTacToe), t.WF →
      ∀ (d : Nat) (p : Player) (a b : Int),
        intMin ≤ a → b ≤ intMax → a < b →
        triSpec (minmaxFuel fuel t d p a b).1.1 (refMinimaxFuel fuel t p).1 a b
  | 0, t, h, d, p, a, b, ha, hb, hab =>
    ⟨fun hva => ⟨le_refl _, hva⟩, fun hbv => ⟨hbv, le_refl _⟩, fun _ _ => rfl⟩
  | fuel + 1, t, h, d, p, a, b, ha, hb, hab => by
    simp only [minmaxFuel, refMinimaxFuel]
    split
    next hterm =>
      exact ⟨fun hva => ⟨le_refl _, hva⟩, fun hbv => ⟨hbv, le_refl _⟩,
        fun _ _ => rfl⟩
    next hterm =>
      split
      next hp =>
        rw [maxLoop_eq_run _ _ _ (minmaxFuel_state fuel) _ a b _ _
          (fun mv hmv => available_moves_cell_none hmv),
          refMaxLoop_eq_run, refMaxRun_val]
        exact maxRun_tri _ _ b t.available_moves a intMin none
          (fun mv _ a' ha' hab' => alphaBeta_tri fuel _
            (WF_setCell h mv.1 mv.2 (some Player.X)) (d + 1) Player.O a' b
            ha' hb hab')
          (le_refl intMin) ha hab
      next hp =>
        rw [minLoop_eq_run _ _ _ (minmaxFuel_state fuel) _ a b _ _
          (fun mv hmv => available_moves_cell_none hmv),
          refMinLoop_eq_run, refMinRun_val]
        exact minRun_tri _ _ a t.available_moves b intMax none
          (fun mv _ b' hb' hab' => alphaBeta_tri fuel _
            (WF_setCell h mv.1 mv.2 (some Player.O)) (d + 1) Player.X a b'
            ha hb' hab')
          (le_refl intMax) hb hab

/-! ### At the root window the pruned loop equals the reference loop -/

theorem maxRun_root (ev2 : Nat × Nat → Int → Int → Int)
    (ev1 : Nat × Nat → Int) :
    ∀ (l : List (Nat × Nat)) (m : Int) (bst : Option (Nat × Nat)),
      (∀ mv ∈ l, ∀ a', intMin ≤ a' → a' ≤ 1 →
        triSpec (ev2 mv a' intMax) (ev1 mv) a' intMax) →
      (∀ mv ∈ l, -1 ≤ ev1 mv ∧ ev1 mv ≤ 1) →
      intMin ≤ m → m ≤ 1 →
      maxRun ev2 l m intMax m bst = refMaxRun ev1 l m bst
  | [], m, bst, _, _, _, _ => rfl
  | mv :: rest, m, bst, H, HB, hm0, hm1 => by
    have hab : m < intMax := lt_of_le_of_lt hm1 (by decide)
    obtain ⟨T1, T2, T3⟩ := H mv (List.mem_cons_self mv rest) m hm0 hm1
    obtain ⟨hv1, hv2⟩ := HB mv (List.mem_cons_self mv rest)
    have Hrest := fun mv' h' => H mv' (List.mem_cons_of_mem _ h')
    have HBrest := fun mv' h' => HB mv' (List.mem_cons_of_mem _ h')
    simp only [maxRun, refMaxRun]
    rcases le_or_lt (ev1 mv) m with hvm | hvm
    · obtain ⟨hve, hem⟩ := T1 hvm
      simp only [if_neg (not_lt.mpr hem), if_neg (not_lt.mpr hvm)]
      rw [max_eq_left hem, if_neg (not_le.mpr hab)]
      exact maxRun_root ev2 ev1 rest m bst Hrest HBrest hm0 hm1
    · have hvMax : ev1 mv < intMax := lt_of_le_of_lt hv2 (by decide)
      have he : ev2 mv m intMax = ev1 mv := T3 hvm hvMax
      rw [he]
      simp only [if_pos hvm]
      rw [max_eq_right (le_of_lt hvm), if_neg (not_le.mpr hvMax)]
      exact maxRun_root ev2 ev1 rest (ev1 mv) (some mv) Hrest HBrest
        (le_trans (by decide : intMin ≤ -1) hv1) hv2

theorem minRun_root (ev2 : Nat × Nat → Int → Int → Int)
    (ev1 : Nat × Nat → Int) :
    ∀ (l : List (Nat × Nat)) (m : Int) (bst : Option (Nat × Nat)),
      (∀ mv ∈ l, ∀ b', -1 ≤ b' → b' ≤ intMax →
        triSpec (ev2 mv intMin b') (ev1 mv) intMin b') →
      (∀ mv ∈ l, -1 ≤ ev1 mv ∧ ev1 mv ≤ 1) →
      -1 ≤ m → m ≤ intMax →
      minRun ev2 l intMin m m bst = refMinRun ev1 l m bst
  | [], m, bst, _, _, _, _ => rfl
  | mv :: rest, m, bst, H, HB, hm1, hm0 => by
    obtain ⟨T1, T2, T3⟩ := H mv (List.mem_cons_self mv rest) m hm1 hm0
    obtain ⟨hv1, hv2⟩ := HB mv (List.mem_cons_self mv rest)
    have Hrest := fun mv' h' => H mv' (List.mem_cons_of_mem _ h')
    have HBrest := fun mv' h' => HB mv' (List.mem_cons_of_mem _ h')
    simp only [minRun, refMinRun]
    rcases le_or_lt m (ev1 mv) with hvm | hvm
    · obtain ⟨hbe, hev⟩ := T2 hvm
      simp only [if_neg (not_lt.mpr hbe), if_neg (not_lt.mpr hvm)]
      rw [min_eq_left hbe,
        if_neg (not_le.mpr (lt_of_lt_of_le (by decide : intMin < -1) hm1))]
      exact minRun_root ev2 ev1 rest m bst Hrest HBrest hm1 hm0
    · have hvMin : intMin < ev1 mv :=
        lt_of_lt_of_le (by decide : intMin < -1) hv1
      have he : ev2 mv intMin m = ev1 mv := T3 hvMin hvm
      rw [he]
      simp only [if_pos hvm]
      rw [min_eq_right (le_of_lt hvm), if_neg (not_le.mpr hvMin)]
      exact minRun_root ev2 ev1 rest (ev1 mv) (some mv) Hrest HBrest hv1
        (le_trans hv2 (by decide : (1 : Int) ≤ intMax))

/-- At the root window `(i32::MIN, i32::MAX)` the alpha-beta search
returns exactly the `(evaluation, move)` pair of the reference
exhaustive minimax, for every fuel and well-formed board. -/
theorem minmax_eq_refFuel :
    ∀ (fuel : Nat) (t : TicTacToe), t.WF → ∀ (d : Nat) (p : Player),
      (minmaxFuel fuel t d p intMin intMax).1 = refMinimaxFuel fuel t p
  | 0, _, _, _, _ => rfl
  | fuel + 1, t, h, d, p => by
    simp only [minmaxFuel, refMinimaxFuel]
    split
    next hterm => rfl
    next hterm =>
      split
      next hp =>
        rw [maxLoop_eq_run _ _ _ (minmaxFuel_state fuel) _ intMin intMax _ _
          (fun mv hmv => available_moves_cell_none hmv), refMaxLoop_eq_run]
        exact maxRun_root _ _ t.available_moves intMin none
          (fun mv _ a' ha0 ha1 => alphaBeta_tri fuel _
            (WF_setCell h mv.1 mv.2 (some Player.X)) (d + 1) Player.O a'
            intMax ha0 (le_refl intMax)
            (lt_of_le_of_lt ha1 (by decide : (1 : Int) < intMax)))
          (fun mv _ => refMinimaxFuel_bounds fuel _ Player.O
            (WF_setCell h mv.1 mv.2 (some Player.X)))
          (le_refl intMin) (by decide)
      next hp =>
        rw [minLoop_eq_run _ _ _ (minmaxFuel_state fuel) _ intMin intMax _ _
          (fun mv hmv => available_moves_cell_none hmv), refMinLoop_eq_run]
        exact minRun_root _ _ t.available_moves intMax none
          (fun mv _ b' hb1 hb0 => alphaBeta_tri fuel _
            (WF_setCell h mv.1 mv.2 (some Player.O)) (d + 1) Player.X intMin
            b' (le_refl intMin) hb0
            (lt_of_lt_of_le (by decide : intMin < -1) hb1))
          (fun mv _ => refMinimaxFuel_bounds fuel _ Player.X
            (WF_setCell h mv.1 mv.2 (some Player.O)))
          (by decide) (le_refl intMax)

/-! ### The unrolled 3×3 evaluator computes the search value -/

theorem setCell_toT (B : B3) (ct : Player) (r c : Nat) (v : Option Player) :
    (toT B ct).setCell r c v = toT (set3 r c v B) ct := by
  rcases r with _ | _ | _ | r <;> rcases c with _ | _ | _ | c <;> rfl

theorem rowAll_toT_0 (B : B3) (ct p : Player) :
    (toT B ct).rowAll 0 p = line3 B.c00 B.c01 B.c02 p := rfl

theorem rowAll_toT_1 (B : B3) (ct p : Player) :
    (toT B ct).rowAll 1 p = line3 B.c10 B.c11 B.c12 p := rfl

theorem rowAll_toT_2 (B : B3) (ct p : Player) :
    (toT B ct).rowAll 2 p = line3 B.c20 B.c21 B.c22 p := rfl

theorem colAll_toT_0 (B : B3) (ct p : Player) :
    (toT B ct).colAll 0 p = line3 B.c00 B.c10 B.c20 p := rfl

theorem colAll_toT_1 (B : B3) (ct p : Player) :
    (toT B ct).colAll 1 p = line3 B.c01 B.c11 B.c21 p := rfl

theorem colAll_toT_2 (B : B3) (ct p : Player) :
    (toT B ct).colAll 2 p = line3 B.c02 B.c12 B.c22 p := rfl

theorem diagAll_toT (B : B3) (ct p : Player) :
    (toT B ct).diagAll p = line3 B.c00 B.c11 B.c22 p := rfl

theorem antiDiagAll_toT (B : B3) (ct p : Player) :
    (toT B ct).antiDiagAll p = line3 B.c02 B.c11 B.c20 p := rfl

theorem findSome?_eq_scanStep (f : Nat → Option Player) (a : Nat)
    (l : List Nat) :
    (a :: l).findSome? f = scanStep (f a) (l.findSome? f) := by
  cases h : f a <;> simp [List.findSome?_cons, h, scanStep]

theorem check_winner_eq_scan (t : TicTacToe) :
    t.check_winner = scanStep ((List.range t.size).findSome? (fun i =>
      if t.rowAll i Player.X then some Player.X
      else if t.rowAll i Player.O then some Player.O
      else if t.colAll i Player.X then some Player.X
      else if t.colAll i Player.O then some Player.O
      else none))
      (if t.diagAll Player.X then some Player.X
       else if t.diagAll Player.O then some Player.O
       else if t.antiDiagAll Player.X then some Player.X
       else if t.antiDiagAll Player.O then some Player.O
       else none) := by
  unfold check_winner scanStep
  cases h : (List.range t.size).findSome? (fun i =>
      if t.rowAll i Player.X then some Player.X
      else if t.rowAll i Player.O then some Player.O
      else if t.colAll i Player.X then some Player.X
      else if t.colAll i Player.O then some Player.O
      else none) <;> simp [h]

theorem check_winner_toT (B : B3) (ct : Player) :
    (toT B ct).check_winner = w3 B := by
  rw [check_winner_eq_scan]
  rw [show List.range (toT B ct).size = [0, 1, 2] from rfl]
  simp only [findSome?_eq_scanStep, List.findSome?_nil]
  simp only [rowAll_toT_0, rowAll_toT_1, rowAll_toT_2, colAll_toT_0,
    colAll_toT_1, colAll_toT_2, diagAll_toT, antiDiagAll_toT]
  rfl

theorem evaluate_toT (B : B3) (ct : Player) :
    (toT B ct).evaluate = eval3 B := by
  unfold evaluate eval3
  rw [check_winner_toT]

theorem is_full_toT (B : B3) (ct : Player) :
    (toT B ct).is_full = full3 B := rfl

theorem avail3_eq (B : B3) (ct : Player) :
    (toT B ct).available_moves = avail3 B := by
  rcases B with ⟨c00, c01, c02, c10, c11, c12, c20, c21, c22⟩
  cases c00 <;> cases c01 <;> cases c02 <;> cases c10 <;> cases c11 <;>
    cases c12 <;> cases c20 <;> cases c21 <;> cases c22 <;> rfl

theorem maxRun_congr (ev1 ev2 : Nat × Nat → Int → Int → Int) :
    ∀ (l : List (Nat × Nat)) (a b m : Int) (bst : Option (Nat × Nat)),
      (∀ mv ∈ l, ∀ a' b', ev1 mv a' b' = ev2 mv a' b') →
      maxRun ev1 l a b m bst = maxRun ev2 l a b m bst
  | [], _, _, _, _, _ => rfl
  | mv :: rest, a, b, m, bst, h => by
    simp only [maxRun, h mv (List.mem_cons_self mv rest) a b]
    split
    · rfl
    · exact maxRun_congr ev1 ev2 rest _ b _ _
        fun mv' hmv' => h mv' (List.mem_cons_of_mem _ hmv')

theorem minRun_congr (ev1 ev2 : Nat × Nat → Int → Int → Int) :
    ∀ (l : List (Nat × Nat)) (a b m : Int) (bst : Option (Nat × Nat)),
      (∀ mv ∈ l, ∀ a' b', ev1 mv a' b' = ev2 mv a' b') →
      minRun ev1 l a b m bst = minRun ev2 l a b m bst
  | [], _, _, _, _, _ => rfl
  | mv :: rest, a, b, m, bst, h => by
    simp only [minRun, h mv (List.mem_cons_self mv rest) a b]
    split
    · rfl
    · exact minRun_congr ev1 ev2 rest a _ _ _
        fun mv' hmv' => h mv' (List.mem_cons_of_mem _ hmv')

/-- The unrolled evaluator computes exactly the value component of the
fuelled search on the board a `B3` denotes, for every fuel, window,
depth and turn marker. -/
theorem fm3_eq : ∀ (fuel : Nat) (B : B3) (ct : Player) (d : Nat)
    (p : Player) (a b : Int),
    (minmaxFuel fuel (toT B ct) d p a b).1.1 = fm3 fuel B p a b
  | 0, _, _, _, _, _, _ => rfl
  | fuel + 1, B, ct, d, p, a, b => by
    simp only [minmaxFuel, fm3]
    rw [show (toT B ct).evaluate = eval3 B from evaluate_toT B ct,
      show (toT B ct).is_full = full3 B from is_full_toT B ct]
    split
    · rfl
    · split
      · rw [maxLoop_eq_run (minmaxFuel fuel) d (toT B ct)
          (fun t' d' p' a' b' => minmaxFuel_state fuel t' d' p' a' b')
          (toT B ct).available_moves a b intMin none
          (fun mv hmv => available_moves_cell_none hmv)]
        rw [avail3_eq B ct]
        rw [maxRun_congr
          (fun mv a' b' => (minmaxFuel fuel
            ((toT B ct).setCell mv.1 mv.2 (some Player.X)) (d + 1)
            Player.O a' b').1.1)
          (fun mv a' b' => fm3 fuel (set3 mv.1 mv.2 (some Player.X) B)
            Player.O a' b')
          (avail3 B) a b intMin none
          (fun mv _ a' b' => by
            show (minmaxFuel fuel
                ((toT B ct).setCell mv.1 mv.2 (some Player.X)) (d + 1)
                Player.O a' b').1.1 =
              fm3 fuel (set3 mv.1 mv.2 (some Player.X) B) Player.O a' b'
            rw [setCell_toT B ct mv.1 mv.2 (some Player.X)]
            exact fm3_eq fuel (set3 mv.1 mv.2 (some Player.X) B) ct
              (d + 1) Player.O a' b')]
      · rw [minLoop_eq_run (minmaxFuel fuel) d (toT B ct)
          (fun t' d' p' a' b' => minmaxFuel_state fuel t' d' p' a' b')
          (toT B ct).available_moves a b intMax none
          (fun mv hmv => available_moves_cell_none hmv)]
        rw [avail3_eq B ct]
        rw [minRun_congr
          (fun mv a' b' => (minmaxFuel fuel
            ((toT B ct).setCell mv.1 mv.2 (some Player.O)) (d + 1)
            Player.X a' b').1.1)
          (fun mv a' b' => fm3 fuel (set3 mv.1 mv.2 (some Player.O) B)
            Player.X a' b')
          (avail3 B) a b intMax none
          (fun mv _ a' b' => by
            show (minmaxFuel fuel
                ((toT B ct).setCell mv.1 mv.2 (some Player.O)) (d + 1)
                Player.X a' b').1.1 =
              fm3 fuel (set3 mv.1 mv.2 (some Player.O) B) Player.X a' b'
            rw [setCell_toT B ct mv.1 mv.2 (some Player.O)]
            exact fm3_eq fuel (set3 mv.1 mv.2 (some Player.O) B) ct
              (d + 1) Player.X a' b')]

theorem fm3_X_step (fuel : Nat) (B : B3) (a b : Int)
    (h : ¬(eval3 B = 1 ∨ eval3 B = -1 ∨ full3 B)) :
    fm3 (fuel + 1) B Player.X a b =
      (maxRun (fun mv a' b' => fm3 fuel (set3 mv.1 mv.2 (some Player.X) B)
        Player.O a' b') (avail3 B) a b intMin none).1 := by
  simp only [fm3]
  rw [if_neg h, if_true]

theorem maxRun_head_zero (ev : Nat × Nat → Int → Int → Int)
    (mv0 : Nat × Nat) (l : List (Nat × Nat)) (a b : Int)
    (bst : Option (Nat × Nat)) (ha : a < 0) (hb : 0 < b)
    (h0 : ev mv0 a b = 0) :
    maxRun ev (mv0 :: l) a b a bst = maxRun ev l 0 b 0 (some mv0) := by
  simp only [maxRun, h0]
  rw [if_pos ha, if_pos ha, max_eq_right (le_of_lt ha),
    if_neg (not_le.mpr hb)]

theorem maxRun_zeros (ev : Nat × Nat → Int → Int → Int) :
    ∀ (l : List (Nat × Nat)) (b : Int) (bst : Option (Nat × Nat)),
      0 < b → (∀ mv ∈ l, ev mv 0 b = 0) →
      (maxRun ev l 0 b 0 bst).1 = 0
  | [], _, _, _, _ => rfl
  | mv :: rest, b, bst, hb, h => by
    have hz : ¬((0 : Int) > 0) := lt_irrefl 0
    simp only [maxRun, h mv (List.mem_cons_self mv rest)]
    rw [if_neg hz, if_neg hz, max_self, if_neg (not_le.mpr hb)]
    exact maxRun_zeros ev rest b bst hb
      fun mv' h' => h mv' (List.mem_cons_of_mem _ h')

end TicTacToe

/-- Claim C4: for every board, player, alpha and beta (and any depth),
after `minmax` returns, the board handed back is identical to the input
board: same `size`, same cell contents everywhere, same `current_turn`. -/
theorem claim_C4 (t : TicTacToe) (d : Nat) (p : Player) (a b : Int) :
    (t.minmax d p a b).2 = t :=
  TicTacToe.minmaxFuel_state _ t d p a b

/-- Claim C10: the fuelled search stabilizes once the fuel exceeds the
number of empty cells: every recursive call fills an empty cell, so the
recursion depth is bounded by the number of empty cells, a full board
being the base case.  Hence `minmaxFuel` with any sufficient fuel equals
`minmax` (which runs with fuel `available_moves.length + 1`). -/
theorem claim_C10 (t : TicTacToe) (h : t.WF) (f d : Nat) (p : Player)
    (a b : Int) (hf : t.available_moves.length < f) :
    TicTacToe.minmaxFuel f t d p a b = t.minmax d p a b :=
  TicTacToe.minmaxFuel_congr_fuel t.available_moves.length t h (Nat.le_refl _)
    f (t.available_moves.length + 1) d p a b hf (Nat.lt_succ_self _)

/-- Claim C8: the search result does not depend on the board's
`current_turn` field: two boards identical in size and cell contents but
differing in `current_turn` give the identical `(evaluation, move)` pair
for the same player, alpha and beta. -/
theorem claim_C8 (s : Nat) (B : List (List (Option Player))) (c1 c2 : Player)
    (d : Nat) (p : Player) (a b : Int) :
    (TicTacToe.minmax ⟨s, B, c1⟩ d p a b).1 =
      (TicTacToe.minmax ⟨s, B, c2⟩ d p a b).1 := by
  rw [TicTacToe.minmax, TicTacToe.minmax,
    show TicTacToe.available_moves ⟨s, B, c2⟩ =
      TicTacToe.available_moves ⟨s, B, c1⟩ from rfl]
  exact TicTacToe.minmaxFuel_ct _ s B c1 c2 d p a b

/-- Claim C7, counterexample: construction with size `0` does not fail
(the constructor cannot fail at all): it succeeds and returns the empty
`0 × 0` grid with `X` (First) to move, contradicting "fails with
`InvalidSize` whenever size ≤ 0". -/
theorem claim_C7_counterexample :
    TicTacToe.new 0 = ⟨0, [], Player.X⟩ := rfl

/-- Claim C7, amended: construction never fails; for every size
(including `0`) it returns an empty `size × size` grid with the turn set
to First. -/
theorem claim_C7 (n : Nat) :
    (TicTacToe.new n).size = n ∧ (TicTacToe.new n).current_turn = Player.X ∧
      (TicTacToe.new n).board.length = n ∧
      ∀ row ∈ (TicTacToe.new n).board, row.length = n ∧ ∀ c ∈ row, c = none := by
  refine ⟨rfl, rfl, by simp [TicTacToe.new], fun row hrow => ?_⟩
  have hr := List.eq_of_mem_replicate hrow
  subst hr
  exact ⟨List.length_replicate n none, fun c hc => List.eq_of_mem_replicate hc⟩

/-- Claim C9: constructing a board with size `0` succeeds, and on the
empty `0 × 0` board `check_winner` returns `X` (the diagonal check
ranges over an empty index range and is vacuously true), `evaluate`
returns `1`, and `minmax` returns `(1, no move)` although no cell is
occupied. -/
theorem claim_C9 :
    TicTacToe.new 0 = ⟨0, [], Player.X⟩ ∧
      (TicTacToe.new 0).check_winner = some Player.X ∧
      (TicTacToe.new 0).evaluate = 1 ∧
      ∀ (d : Nat) (p : Player) (a b : Int),
        ((TicTacToe.new 0).minmax d p a b).1 = (1, none) :=
  ⟨rfl, rfl, rfl, fun _ _ _ _ => rfl⟩

/-- Claim C6, counterexample: decoding `"X-0-0_O-1"` (second token has
only two fields) fails with the `MalformedMove` error, yet the cell
placed by the earlier token `"X-0-0"` is visible to the caller on the
returned board, contradicting "no partial mutation is visible". -/
theorem claim_C6_counterexample :
    ((TicTacToe.new 3).parse_moves "X-0-0_O-1".data).1 =
        some "Invalid move format" ∧
      ((TicTacToe.new 3).parse_moves "X-0-0_O-1".data).2.cell 0 0 =
        some Player.X := by
  constructor
  · decide
  · decide

/-- Claim C6, amended: if the move string splits into tokens of which
some token fails the three-field split, and all tokens before it decode
and apply successfully, then decoding fails with the `MalformedMove`
error, and the board returned to the caller is the one with exactly the
earlier tokens' placements applied (the source mutates in place, so
those placements remain visible; the caller treats the instance as
discarded). -/
theorem claim_C6 (t : TicTacToe) (s : List Char) (pre : List (List Char))
    (bad : List Char) (rest : List (List Char)) (t' : TicTacToe)
    (hsplit : TicTacToe.splitOnChar '_' s = pre ++ bad :: rest)
    (hpre : TicTacToe.parseMovesAux t pre = (none, t'))
    (hbad : (TicTacToe.splitOnChar '-' bad).length ≠ 3) :
    t.parse_moves s = (some "Invalid move format", t') := by
  rw [TicTacToe.parse_moves, hsplit, TicTacToe.parseMovesAux_append hpre]
  simp only [TicTacToe.parseMovesAux, TicTacToe.applyToken, if_pos hbad]

/-- Witness for C6 at the concrete input of the counterexample family:
`"X-0-0_O-1"` on a fresh `3 × 3` board, with the first token applied
successfully and the second token malformed. -/
theorem claim_C6_witness :
    TicTacToe.splitOnChar '_' "X-0-0_O-1".data = ["X-0-0".data, "O-1".data] ∧
      TicTacToe.parseMovesAux (TicTacToe.new 3) ["X-0-0".data] =
        (none, ⟨3, [[some Player.X, none, none], [none, none, none],
          [none, none, none]], Player.O⟩) ∧
      (TicTacToe.splitOnChar '-' "O-1".data).length ≠ 3 ∧
      (TicTacToe.new 3).parse_moves "X-0-0_O-1".data =
        (some "Invalid move format", ⟨3, [[some Player.X, none, none],
          [none, none, none], [none, none, none]], Player.O⟩) :=
  ⟨by decide, by decide, by decide,
    claim_C6 (TicTacToe.new 3) "X-0-0_O-1".data ["X-0-0".data] "O-1".data []
      ⟨3, [[some Player.X, none, none], [none, none, none],
        [none, none, none]], Player.O⟩
      (by decide) (by decide) (by decide)⟩

/-- Claim C2, counterexample: on the 2×2 board with top row entirely `O`
and bottom row entirely `X`, some full row consists entirely of First's
(X's) symbol, yet `evaluate` returns `-1` (the scan finds O's row
first), not `+1`; so the claimed equivalence fails on boards where both
symbols have complete lines. -/
theorem claim_C2_counterexample :
    (⟨2, [[some Player.O, some Player.O], [some Player.X, some Player.X]],
        Player.X⟩ : TicTacToe).hasLine Player.X ∧
      (⟨2, [[some Player.O, some Player.O], [some Player.X, some Player.X]],
        Player.X⟩ : TicTacToe).evaluate = -1 ∧
      ¬(⟨2, [[some Player.O, some Player.O], [some Player.X, some Player.X]],
        Player.X⟩ : TicTacToe).evaluate = 1 := by
  refine ⟨by decide, by decide, by decide⟩

/-- Claim C2, amended: for every board (of any size, also boards not
reachable by legal play) in which it is not the case that both players
have a complete line, `evaluate` returns `+1` iff some full row, column
or diagonal consists entirely of First's symbol, `-1` iff some such line
consists entirely of Second's symbol, and `0` iff neither.  (When both
players have complete lines, the scan order of `check_winner` decides.) -/
theorem claim_C2 (t : TicTacToe)
    (h : ¬(t.hasLine Player.X ∧ t.hasLine Player.O)) :
    (t.evaluate = 1 ↔ t.hasLine Player.X) ∧
      (t.evaluate = -1 ↔ t.hasLine Player.O) ∧
      (t.evaluate = 0 ↔ ¬t.hasLine Player.X ∧ ¬t.hasLine Player.O) := by
  cases hcw : t.check_winner with
  | none =>
    have hX := TicTacToe.check_winner_none hcw Player.X
    have hO := TicTacToe.check_winner_none hcw Player.O
    have he : t.evaluate = 0 := by rw [TicTacToe.evaluate, hcw]
    rw [he]
    exact ⟨⟨fun h2 => absurd h2 (by decide), fun h2 => absurd h2 hX⟩,
      ⟨fun h2 => absurd h2 (by decide), fun h2 => absurd h2 hO⟩,
      ⟨fun _ => ⟨hX, hO⟩, fun _ => rfl⟩⟩
  | some q =>
    have hq := TicTacToe.check_winner_some hcw
    cases q with
    | X =>
      have he : t.evaluate = 1 := by rw [TicTacToe.evaluate, hcw]
      have hO : ¬t.hasLine Player.O := fun hO => h ⟨hq, hO⟩
      rw [he]
      exact ⟨⟨fun _ => hq, fun _ => rfl⟩,
        ⟨fun h2 => absurd h2 (by decide), fun h2 => absurd h2 hO⟩,
        ⟨fun h2 => absurd h2 (by decide), fun h2 => absurd hq h2.1⟩⟩
    | O =>
      have he : t.evaluate = -1 := by rw [TicTacToe.evaluate, hcw]
      have hX : ¬t.hasLine Player.X := fun hX => h ⟨hX, hq⟩
      rw [he]
      exact ⟨⟨fun h2 => absurd h2 (by decide), fun h2 => absurd h2 hX⟩,
        ⟨fun _ => hq, fun _ => rfl⟩,
        ⟨fun h2 => absurd h2 (by decide), fun h2 => absurd hq h2.2⟩⟩

/-- Witness for C2 on the 1×1 board whose single cell holds `X`: only
First has a line, and `evaluate` is `1`. -/
theorem claim_C2_witness :
    ¬((⟨1, [[some Player.X]], Player.X⟩ : TicTacToe).hasLine Player.X ∧
        (⟨1, [[some Player.X]], Player.X⟩ : TicTacToe).hasLine Player.O) ∧
      (((⟨1, [[some Player.X]], Player.X⟩ : TicTacToe).evaluate = 1 ↔
          (⟨1, [[some Player.X]], Player.X⟩ : TicTacToe).hasLine Player.X) ∧
        ((⟨1, [[some Player.X]], Player.X⟩ : TicTacToe).evaluate = -1 ↔
          (⟨1, [[some Player.X]], Player.X⟩ : TicTacToe).hasLine Player.O) ∧
        ((⟨1, [[some Player.X]], Player.X⟩ : TicTacToe).evaluate = 0 ↔
          ¬(⟨1, [[some Player.X]], Player.X⟩ : TicTacToe).hasLine Player.X ∧
            ¬(⟨1, [[some Player.X]], Player.X⟩ : TicTacToe).hasLine Player.O)) :=
  ⟨by decide, claim_C2 _ (by decide)⟩

/-- Claim C3: for every well-formed board and player (and any window),
`minmax` returns no recommended move if and only if the position is
terminal (evaluation `+1` or `-1`, or full board); for every
non-terminal board it returns `some (row, col)` with `row < size`,
`col < size`, and cell `(row, col)` empty in the input board. -/
theorem claim_C3 (t : TicTacToe) (h : t.WF) (d : Nat) (p : Player)
    (a b : Int) :
    ((t.minmax d p a b).1.2 = none ↔
      (t.evaluate = 1 ∨ t.evaluate = -1 ∨ t.is_full = true)) ∧
    (¬(t.evaluate = 1 ∨ t.evaluate = -1 ∨ t.is_full = true) →
      ∃ r c, (t.minmax d p a b).1.2 = some (r, c) ∧
        r < t.size ∧ c < t.size ∧ t.cell r c = none) := by
  obtain ⟨hiff, hex⟩ :=
    TicTacToe.minmaxFuel_move_spec t.available_moves.length t d p a b h
  refine ⟨hiff, fun hn => ?_⟩
  obtain ⟨⟨r, c⟩, hmv, heq⟩ := hex hn
  obtain ⟨h1, h2, h3⟩ := TicTacToe.mem_available_moves.mp hmv
  exact ⟨r, c, heq, h1, h2, h3⟩

/-- Witness for C3 on the non-terminal 1×1 empty board with `X` to move
and the root window. -/
theorem claim_C3_witness :
    (⟨1, [[none]], Player.X⟩ : TicTacToe).WF ∧
      ((((⟨1, [[none]], Player.X⟩ : TicTacToe).minmax 0 Player.X intMin
          intMax).1.2 = none ↔
        ((⟨1, [[none]], Player.X⟩ : TicTacToe).evaluate = 1 ∨
          (⟨1, [[none]], Player.X⟩ : TicTacToe).evaluate = -1 ∨
          (⟨1, [[none]], Player.X⟩ : TicTacToe).is_full = true)) ∧
      (¬((⟨1, [[none]], Player.X⟩ : TicTacToe).evaluate = 1 ∨
          (⟨1, [[none]], Player.X⟩ : TicTacToe).evaluate = -1 ∨
          (⟨1, [[none]], Player.X⟩ : TicTacToe).is_full = true) →
        ∃ r c, ((⟨1, [[none]], Player.X⟩ : TicTacToe).minmax 0 Player.X intMin
            intMax).1.2 = some (r, c) ∧ r < 1 ∧ c < 1 ∧
          (⟨1, [[none]], Player.X⟩ : TicTacToe).cell r c = none)) :=
  ⟨by decide, claim_C3 ⟨1, [[none]], Player.X⟩ (by decide) 0 Player.X
    intMin intMax⟩

/-- Claim C1: for every well-formed board and every player, the
alpha-beta search called at the root with `alpha = i32::MIN` and
`beta = i32::MAX` returns exactly the same `(evaluation, recommended
move)` pair as the reference exhaustive minimax without pruning
(`refMinimax`), which enumerates candidate cells in row-major order and
updates the recommended move only on strict improvement. -/
theorem claim_C1 (t : TicTacToe) (p : Player) (h : t.WF) :
    (t.minmax 0 p intMin intMax).1 = t.refMinimax p :=
  TicTacToe.minmax_eq_refFuel (t.available_moves.length + 1) t h 0 p

/-- Witness for C1 on the 1×1 empty board with `X` to move. -/
theorem claim_C1_witness :
    (TicTacToe.new 1).WF ∧
      ((TicTacToe.new 1).minmax 0 Player.X intMin intMax).1 =
        (TicTacToe.new 1).refMinimax Player.X :=
  ⟨by decide, claim_C1 (TicTacToe.new 1) Player.X (by decide)⟩

/-- Witness for C10 on the 1×1 empty board: fuel `2` exceeds the single
empty cell, and the result agrees with `minmax`. -/
theorem claim_C10_witness :
    (TicTacToe.new 1).WF ∧ (TicTacToe.new 1).available_moves.length < 2 ∧
      TicTacToe.minmaxFuel 2 (TicTacToe.new 1) 0 Player.X intMin intMax =
        (TicTacToe.new 1).minmax 0 Player.X intMin intMax :=
  ⟨by decide, by decide,
    claim_C10 (TicTacToe.new 1) (by decide) 2 0 Player.X intMin intMax
      (by decide)⟩

set_option maxRecDepth 4000
set_option maxHeartbeats 1000000

/-- Subtree value at root child `(0,0)` of the empty 3×3 board (`O`
to move after `X` plays `(0,0)`), evaluated inside the kernel. -/
theorem fm3c00 : TicTacToe.fm3 9 (TicTacToe.set3 0 0 (some Player.X)
    ⟨none, none, none, none, none, none, none, none,
      none⟩) Player.O intMin intMax = 0 := by decide!

/-- Subtree value at root child `(0,1)` of the empty 3×3 board (`O`
to move after `X` plays `(0,1)`), evaluated inside the kernel. -/
theorem fm3c01 : TicTacToe.fm3 9 (TicTacToe.set3 0 1 (some Player.X)
    ⟨none, none, none, none, none, none, none, none,
      none⟩) Player.O 0 intMax = 0 := by decide!

/-- Subtree value at root child `(0,2)` of the empty 3×3 board (`O`
to move after `X` plays `(0,2)`), evaluated inside the kernel. -/
theorem fm3c02 : TicTacToe.fm3 9 (TicTacToe.set3 0 2 (some Player.X)
    ⟨none, none, none, none, none, none, none, none,
      none⟩) Player.O 0 intMax = 0 := by decide!

/-- Subtree value at root child `(1,0)` of the empty 3×3 board (`O`
to move after `X` plays `(1,0)`), evaluated inside the kernel. -/
theorem fm3c10 : TicTacToe.fm3 9 (TicTacToe.set3 1 0 (some Player.X)
    ⟨none, none, none, none, none, none, none, none,
      none⟩) Player.O 0 intMax = 0 := by decide!

/-- Subtree value at root child `(1,1)` of the empty 3×3 board (`O`
to move after `X` plays `(1,1)`), evaluated inside the kernel. -/
theorem fm3c11 : TicTacToe.fm3 9 (TicTacToe.set3 1 1 (some Player.X)
    ⟨none, none, none, none, none, none, none, none,
      none⟩) Player.O 0 intMax = 0 := by decide!

/-- Subtree value at root child `(1,2)` of the empty 3×3 board (`O`
to move after `X` plays `(1,2)`), evaluated inside the kernel. -/
theorem fm3c12 : TicTacToe.fm3 9 (TicTacToe.set3 1 2 (some Player.X)
    ⟨none, none, none, none, none, none, none, none,
      none⟩) Player.O 0 intMax = 0 := by decide!

/-- Subtree value at root child `(2,0)` of the empty 3×3 board (`O`
to move after `X` plays `(2,0)`), evaluated inside the kernel. -/
theorem fm3c20 : TicTacToe.fm3 9 (TicTacToe.set3 2 0 (some Player.X)
    ⟨none, none, none, none, none, none, none, none,
      none⟩) Player.O 0 intMax = 0 := by decide!

/-- Subtree value at root child `(2,1)` of the empty 3×3 board (`O`
to move after `X` plays `(2,1)`), evaluated inside the kernel. -/
theorem fm3c21 : TicTacToe.fm3 9 (TicTacToe.set3 2 1 (some Player.X)
    ⟨none, none, none, none, none, none, none, none,
      none⟩) Player.O 0 intMax = 0 := by decide!

/-- Subtree value at root child `(2,2)` of the empty 3×3 board (`O`
to move after `X` plays `(2,2)`), evaluated inside the kernel. -/
theorem fm3c22 : TicTacToe.fm3 9 (TicTacToe.set3 2 2 (some Player.X)
    ⟨none, none, none, none, none, none, none, none,
      none⟩) Player.O 0 intMax = 0 := by decide!

/-- C5: on the empty 3×3 board with `X` (First) to move, `minmax` called
with `alpha = i32::MIN` and `beta = i32::MAX` returns evaluation exactly
`0`.  Proved by running the search inside the kernel through the unrolled
3×3 evaluator `fm3` (equal to the value component of the fuelled search
by `TicTacToe.fm3_eq`), one root child per kernel reduction, the root
loop assembled by `TicTacToe.maxRun_head_zero` and
`TicTacToe.maxRun_zeros`. -/
theorem claim_C5 : (((TicTacToe.new 3).minmax 0 Player.X intMin
    intMax).1).1 = 0 := by
  have hrest : ∀ mv ∈ [(0, 1), (0, 2), (1, 0), (1, 1), (1, 2), (2, 0),
      (2, 1), (2, 2)], TicTacToe.rootEv mv 0 intMax = 0 := by
    intro mv hmv
    fin_cases hmv
    · exact fm3c01
    · exact fm3c02
    · exact fm3c10
    · exact fm3c11
    · exact fm3c12
    · exact fm3c20
    · exact fm3c21
    · exact fm3c22
  have hroot : TicTacToe.fm3 10 ⟨none, none, none, none, none, none, none,
      none, none⟩ Player.X intMin intMax = 0 := by
    calc TicTacToe.fm3 10 ⟨none, none, none, none, none, none, none, none,
        none⟩ Player.X intMin intMax
        = (TicTacToe.maxRun TicTacToe.rootEv
            (TicTacToe.avail3 ⟨none, none, none, none, none, none, none,
              none, none⟩) intMin intMax intMin none).1 :=
          TicTacToe.fm3_X_step 9 ⟨none, none, none, none, none, none, none,
            none, none⟩ intMin intMax (by decide)
      _ = (TicTacToe.maxRun TicTacToe.rootEv ((0, 0) :: [(0, 1), (0, 2),
            (1, 0), (1, 1), (1, 2), (2, 0), (2, 1), (2, 2)]) intMin intMax
            intMin none).1 := by
          rw [show TicTacToe.avail3 ⟨none, none, none, none, none, none,
            none, none, none⟩ = (0, 0) :: [(0, 1), (0, 2), (1, 0), (1, 1),
            (1, 2), (2, 0), (2, 1), (2, 2)] from rfl]
      _ = (TicTacToe.maxRun TicTacToe.rootEv [(0, 1), (0, 2), (1, 0),
            (1, 1), (1, 2), (2, 0), (2, 1), (2, 2)] 0 intMax 0
            (some (0, 0))).1 := by
          rw [TicTacToe.maxRun_head_zero TicTacToe.rootEv (0, 0) [(0, 1),
            (0, 2), (1, 0), (1, 1), (1, 2), (2, 0), (2, 1), (2, 2)] intMin
            intMax none (by decide) (by decide) fm3c00]
      _ = 0 :=
          TicTacToe.maxRun_zeros TicTacToe.rootEv [(0, 1), (0, 2), (1, 0),
            (1, 1), (1, 2), (2, 0), (2, 1), (2, 2)] intMax (some (0, 0))
            (by decide) hrest
  have hb : TicTacToe.new 3 = TicTacToe.toT ⟨none, none, none, none,
      none, none, none, none, none⟩ Player.X := rfl
  have hf : (TicTacToe.new 3).available_moves.length + 1 = 10 := rfl
  unfold TicTacToe.minmax
  rw [hf, hb, TicTacToe.fm3_eq 10 ⟨none, none, none, none, none, none,
    none, none, none⟩ Player.X 0 Player.X intMin intMax, hroot]
